import Mathlib

/-
Verification development for the obsidian-tools repository
(year-based note sorting and resource consolidation for markdown vaults).

The Python sources are shallowly embedded:
  * filesystem paths are `PPath` (absolute flag plus a list of name
    components, mirroring `pathlib.Path.parts`);
  * the filesystem is an explicit `FS` value (files with optional readable
    content, plus directories); `open`/`read_text` failures are the `none`
    content case, and `rename`/`mkdir`/`write_text` are pure state updates;
  * the SHA-256 content fingerprint is modelled as an injective function of
    the readable content (`'h' :: content`), which is how the sources use
    it: equal digests stand for equal content;
  * the concrete regular expressions of the sources are implemented as
    character-list scanners that follow the Python `re` semantics of the
    exact patterns used (leftmost scan, non-overlapping `re.sub`/`findall`,
    greedy/lazy backtracking where the pattern has it). Scanners that
    consume at least one character per step are written with an explicit
    fuel argument instantiated with the input length, which is always
    sufficient, so the definitions compute by `rfl`/`decide`.
-/

set_option maxRecDepth 8000

namespace ObsidianSpec

/-- A filesystem path: `abs` says whether the path is absolute (its
`parts` then start with the root entry, as in `pathlib`), `comps` are the
name components. `pathlib.Path('/a/b')` is `⟨true, [a, b]⟩`,
`Path('.')` is `⟨false, []⟩`, `Path('/')` is `⟨true, []⟩`. -/
structure PPath where
  abs : Bool
  comps : List (List Char)
deriving DecidableEq, Repr

/-- `len(path.parts)`: component count plus one root entry when absolute. -/
def partsLen (p : PPath) : Nat := p.comps.length + (if p.abs then 1 else 0)

/-- `path.parent` (`Path('/').parent = Path('/')`, `Path('.').parent = Path('.')`). -/
def parent (p : PPath) : PPath := { p with comps := p.comps.dropLast }

/-- `list(path.parents)`: all proper prefixes of the path, nearest first,
down to the root (or to `.` for relative paths). -/
def parentsList (p : PPath) : List PPath :=
  (List.range p.comps.length).reverse.map (fun k => ⟨p.abs, p.comps.take k⟩)

/-- `path.name` (`''` for the root). -/
def lastComp (p : PPath) : List Char := (p.comps.getLast?).getD []

/-- `path / component`. -/
def childPath (p : PPath) (c : List Char) : PPath := ⟨p.abs, p.comps ++ [c]⟩

/-- `p` is a strict descendant of `root` (what `root.rglob(pattern)`
can yield for a single-component pattern). -/
def strictUnder (root p : PPath) : Bool :=
  (root.abs == p.abs) && root.comps.isPrefixOf p.comps &&
    decide (root.comps.length < p.comps.length)

/-- The ancestor relation as a specification-side proposition: `d` is a
proper ancestor directory of `p`. -/
def isPropAncestor (d p : PPath) : Prop :=
  d.abs = p.abs ∧ d.comps.isPrefixOf p.comps = true ∧ d.comps.length < p.comps.length

/-- `d` is an ancestor of every path in `ps`. -/
def isAncestorOfAll (d : PPath) (ps : List PPath) : Prop :=
  ∀ p ∈ ps, isPropAncestor d p

/-- The decimal digit character for `d < 10` (models Python string
formatting of one digit). -/
def digitChr (d : Nat) : Char := Char.ofNat (48 + d)

/-- Decimal rendering of a natural number with explicit fuel; fuel `n`
always suffices for input `n` since the argument shrinks by division
by ten each step. -/
def natStrGo : Nat → Nat → List Char
  | 0, n => [digitChr (n % 10)]
  | fuel + 1, n => if n < 10 then [digitChr n] else natStrGo fuel (n / 10) ++ [digitChr (n % 10)]

/-- `str(n)` / `f-string` rendering of a natural number. -/
def natStr (n : Nat) : List Char := natStrGo n n

/-- Decode a decimal digit string (left inverse of `natStr`). -/
def natVal (l : List Char) : Nat := l.foldl (fun a c => 10 * a + (c.toNat - 48)) 0

/-- Index of the last occurrence of `c` in `l`, if any (`str.rfind`). -/
def lastIdxOf (c : Char) (l : List Char) : Option Nat :=
  (l.reverse.findIdx? (fun x => x == c)).map (fun j => l.length - 1 - j)

/-- `pathlib`'s `(stem, suffix)` split of a file name: the suffix starts at
the last dot provided that dot is neither the first nor the last character;
otherwise the suffix is empty. -/
def splitStem (name : List Char) : List Char × List Char :=
  match lastIdxOf '.' name with
  | some i => if 0 < i ∧ i < name.length - 1 then (name.take i, name.drop i) else (name, [])
  | none => (name, [])

/-- The `n`-th rename candidate `parent / f"{stem}_{n}{suffix}"` tried by
`get_unique_filename`. -/
def uniqueCandidate (target : PPath) (n : Nat) : PPath :=
  ⟨target.abs,
    target.comps.dropLast ++
      [(splitStem (lastComp target)).1 ++ '_' :: natStr n ++ (splitStem (lastComp target)).2]⟩

/-- Filesystem state: regular files (with `some` readable content, or
`none` when reading raises `OSError`/`UnicodeDecodeError`) and
directories. Markdown notes are ordinary files whose content is their
text. -/
structure FS where
  files : List (PPath × Option (List Char))
  dirs : List PPath
deriving DecidableEq, Repr

/-- Every path that exists on the filesystem. -/
def FS.allPaths (fs : FS) : List PPath := fs.files.map (fun e => e.1) ++ fs.dirs

/-- `Path.exists()` (true for files and directories alike). -/
def FS.pathExists (fs : FS) (p : PPath) : Bool := decide (p ∈ fs.allPaths)

/-- `path.read_text()`: the content when `p` is a readable file, `none`
when the file is missing or unreadable (the sources catch `OSError` and
`UnicodeDecodeError`). -/
def FS.read (fs : FS) (p : PPath) : Option (List Char) :=
  match fs.files.lookup p with
  | some (some t) => some t
  | _ => none

/-- The `'CONFLICT'` sentinel stored by `build_reference_array` in place of
a digest. -/
def CONFLICT : List Char := "CONFLICT".data

/-- `FileHasher.compute_hash` (= `compute_file_hash` in
`sort_md_by_year.py`): the streaming SHA-256 digest, modelled as an
injective function of the readable content; `none` when the file cannot
be read. A model digest `'h' :: content` is never the `'CONFLICT'`
sentinel. -/
def compute_hash (fs : FS) (p : PPath) : Option (List Char) :=
  (FS.read fs p).map (fun t => 'h' :: t)

/-- `FileHasher.files_are_identical`: both digests computed successfully
and equal; any read failure yields `false`. -/
def files_are_identical (fs : FS) (a b : PPath) : Bool :=
  match compute_hash fs a, compute_hash fs b with
  | some x, some y => x == y
  | _, _ => false

/-- `source.rename(target)` for a regular file. -/
def FS.renameFile (fs : FS) (src tgt : PPath) : FS :=
  { fs with files := fs.files.map (fun e => if e.1 = src then (tgt, e.2) else e) }

/-- `dir.mkdir(parents=True, exist_ok=True)`. -/
def FS.mkdirParents (fs : FS) (d : PPath) : FS :=
  { fs with dirs := d :: parentsList d ++ fs.dirs }

/-- `path.write_text(t)`: update the file in place, or create it. -/
def FS.writeFile (fs : FS) (p : PPath) (t : List Char) : FS :=
  { fs with files :=
      if fs.files.any (fun e => e.1 = p)
      then fs.files.map (fun e => if e.1 = p then (p, some t) else e)
      else fs.files ++ [(p, some t)] }

/-! ### Link extraction and rewriting (`markdown_parser.py`)

`extract_resource_links` uses the pattern `!?\[\[(_resources/[^\]|]+)`
with `re.findall`; `update_resource_link` substitutes the pattern
`(!\[\[_resources/)OLD(\|[^\]]+\]\]|\]\])` with `\1NEW\2` via `re.sub`.
Both are leftmost, non-overlapping scans, implemented below. -/

/-- One match attempt of `!?\[\[(_resources/[^\]|]+)` at the current
position: an optional `!`, the literal `[[_resources/`, then a maximal
nonempty run of characters other than `]` and `|` (the capture is
`_resources/` plus that run). Returns the capture and the rest of the
input after the match. -/
def tryExtract (s : List Char) : Option (List Char × List Char) :=
  let s1 := match s with
    | '!' :: r => r
    | _ => s
  if ("[[_resources/".data).isPrefixOf s1 then
    let r := s1.drop 13
    let run := r.takeWhile (fun ch => !(ch == ']' || ch == '|'))
    if run.isEmpty then none
    else some ("_resources/".data ++ run, r.drop run.length)
  else none

/-- Scanning loop of `re.findall`: try a match at each position, emit the
capture and resume after the match. Every successful match consumes at
least one character, so fuel equal to the input length is sufficient. -/
def extractGo : Nat → List Char → List (List Char)
  | 0, _ => []
  | _ + 1, [] => []
  | fuel + 1, c :: cs =>
    match tryExtract (c :: cs) with
    | some (cap, rest) => cap :: extractGo fuel rest
    | none => extractGo fuel cs

/-- `MarkdownParser.extract_resource_links` applied to note text (the
file-reading wrapper is `FS.extract_resource_links` below). -/
def extractScan (t : List Char) : List (List Char) := extractGo t.length t

/-- The fixed part `![[_resources/` of `update_resource_link`'s pattern,
followed by a filename. -/
def updHeader (old : List Char) : List Char := "![[_resources/".data ++ old

/-- One match attempt of `(!\[\[_resources/)OLD(\|[^\]]+\]\]|\]\])` at the
current position; returns the text matched by group 2 and the rest of the
input after the whole match. -/
def tryUpd (old : List Char) (s : List Char) : Option (List Char × List Char) :=
  if (updHeader old).isPrefixOf s then
    let r := s.drop (updHeader old).length
    match r with
    | '|' :: r2 =>
      let run := r2.takeWhile (fun ch => ch != ']')
      if !run.isEmpty && ("]]".data).isPrefixOf (r2.drop run.length)
      then some ('|' :: run ++ "]]".data, r2.drop (run.length + 2))
      else none
    | _ => if ("]]".data).isPrefixOf r then some ("]]".data, r.drop 2) else none
  else none

/-- `re.sub` scanning loop for `update_resource_link`: replace each match
by `![[_resources/NEW` plus the matched group 2, scanning left to right
without overlap. -/
def subUpdGo (old new : List Char) : Nat → List Char → List Char
  | 0, s => s
  | _ + 1, [] => []
  | fuel + 1, c :: cs =>
    match tryUpd old (c :: cs) with
    | some (g2, rest) => updHeader new ++ g2 ++ subUpdGo old new fuel rest
    | none => c :: subUpdGo old new fuel cs

/-- The text transformation performed by
`MarkdownParser.update_resource_link` (and by
`update_resource_link_in_markdown` in `sort_md_by_year.py`). -/
def subUpdate (old new t : List Char) : List Char := subUpdGo old new t.length t

/-- `MarkdownParser.update_resource_link` as a file operation: read the
note, substitute, write back; returns `False` and leaves the filesystem
unchanged when the note cannot be read. -/
def update_resource_link (fs : FS) (md : PPath) (old new : List Char) : Bool × FS :=
  match FS.read fs md with
  | some t => (true, FS.writeFile fs md (subUpdate old new t))
  | none => (false, fs)

/-! ### `ResourceOptimizer._update_markdown_link`'s substitution

Pattern `(!\[\[)(?:.*?/)?OLD(\|[^\]]+\]|\]\])` (no DOTALL, so `.` does not
match a newline; the optional group is tried first, with a lazy `.*?`). -/

/-- Match `OLD` then group 2 (`\|[^\]]+\]` or `\]\]`) at `t`. -/
def tryOptTail (old : List Char) (t : List Char) : Option (List Char × List Char) :=
  if old.isPrefixOf t then
    let r := t.drop old.length
    match r with
    | '|' :: r2 =>
      let run := r2.takeWhile (fun ch => ch != ']')
      if !run.isEmpty && ((r2.drop run.length).head? == some ']')
      then some ('|' :: run ++ [']'], r2.drop (run.length + 1))
      else none
    | _ => if ("]]".data).isPrefixOf r then some ("]]".data, r.drop 2) else none
  else none

/-- The lazy `(?:.*?/)` alternative: try each `/` from the left (with no
newline absorbed before it), continuing after the first position whose
tail matches. -/
def tryOptSlashGo (old : List Char) : Nat → List Char → Option (List Char × List Char)
  | 0, _ => none
  | _ + 1, [] => none
  | fuel + 1, ch :: r =>
    if ch == '\n' then none
    else if ch == '/' then
      match tryOptTail old r with
      | some x => some x
      | none => tryOptSlashGo old fuel r
    else tryOptSlashGo old fuel r

/-- One match attempt of the optimizer's pattern at the current position
(the optional group is greedy, so the slash alternative is tried before
the bare one). -/
def tryOptMatch (old : List Char) (s : List Char) : Option (List Char × List Char) :=
  if ("![[".data).isPrefixOf s then
    let t := s.drop 3
    match tryOptSlashGo old t.length t with
    | some x => some x
    | none => tryOptTail old t
  else none

/-- `re.sub` loop for `_update_markdown_link`: replacement is
`![[` plus the relative path plus group 2. -/
def optSubGo (old rel : List Char) : Nat → List Char → List Char
  | 0, s => s
  | _ + 1, [] => []
  | fuel + 1, c :: cs =>
    match tryOptMatch old (c :: cs) with
    | some (g2, rest) => "![[".data ++ rel ++ g2 ++ optSubGo old rel fuel rest
    | none => c :: optSubGo old rel fuel cs

/-- The text transformation of `ResourceOptimizer._update_markdown_link`. -/
def optSub (old rel t : List Char) : List Char := optSubGo old rel t.length t

/-! ### Date extraction (`markdown_parser.py`, duplicated in
`sort_md_by_year.py`) -/

/-- ASCII `\d` (the digit characters the sources' dates consist of). -/
def isDigitCh (c : Char) : Bool := '0' ≤ c && c ≤ '9'

/-- `\s` (ASCII whitespace as produced in the notes the sources handle). -/
def isSpaceCh (c : Char) : Bool :=
  c == ' ' || c == '\t' || c == '\n' || c == '\r' || c == '\x0b' || c == '\x0c'

/-- `int` of one digit character. -/
def dval (c : Char) : Nat := c.toNat - 48

/-- `int` of two digit characters. -/
def dec2 (a b : Char) : Nat := 10 * dval a + dval b

/-- `int` of four digit characters. -/
def dec4 (a b c d : Char) : Nat := 1000 * dval a + 100 * dval b + 10 * dval c + dval d

/-- `extract_year_from_filename`: `re.match(r'^(\d{4})(\d{2})(\d{2})_', name)`
followed by the range validation `1900 <= year <= 2100`, `1 <= month <= 12`,
`1 <= day <= 31`. -/
def extract_year_from_filename (filename : List Char) : Option Nat :=
  match filename with
  | c1 :: c2 :: c3 :: c4 :: c5 :: c6 :: c7 :: c8 :: '_' :: _ =>
    if isDigitCh c1 && isDigitCh c2 && isDigitCh c3 && isDigitCh c4 &&
       isDigitCh c5 && isDigitCh c6 && isDigitCh c7 && isDigitCh c8 then
      let year := dec4 c1 c2 c3 c4
      let month := dec2 c5 c6
      let day := dec2 c7 c8
      if 1900 ≤ year ∧ year ≤ 2100 ∧ 1 ≤ month ∧ month ≤ 12 ∧ 1 ≤ day ∧ day ≤ 31
      then some year else none
    else none
  | _ => none

/-- First index at which `needle` occurs in the input, if any. -/
def findSub (needle : List Char) : List Char → Option Nat
  | [] => if needle.isEmpty then some 0 else none
  | c :: r => if needle.isPrefixOf (c :: r) then some 0 else (findSub needle (r)).map (· + 1)

/-- One backtracking attempt of `^---\s*\n(.*?)\n---` (DOTALL) after the
leading `---`, with `\s*` consuming exactly `p` characters: the next
character must be `\n`, and the lazy group ends at the first following
`\n---`. -/
def fmAttempt (r : List Char) (p : Nat) : Option (List Char) :=
  if r[p]? == some '\n' then
    (findSub "\n---".data (r.drop (p + 1))).map (fun q => (r.drop (p + 1)).take q)
  else none

/-- Backtracking order of the greedy `\s*`: longest first, down to the
empty run. -/
def fmTry (r : List Char) : Nat → Option (List Char)
  | 0 => fmAttempt r 0
  | p + 1 =>
    match fmAttempt r (p + 1) with
    | some g => some g
    | none => fmTry r p

/-- `re.match(r'^---\s*\n(.*?)\n---', content, re.DOTALL)`: the captured
front-matter block, when the match succeeds. The `\s*` run can consume at
most the maximal whitespace run after `---`, and a successful attempt
requires a `\n` at its end, so trying lengths from that maximum down to
zero realises the engine's backtracking. -/
def fmMatch (s : List Char) : Option (List Char) :=
  if ("---".data).isPrefixOf s then
    let r := s.drop 3
    fmTry r (r.takeWhile isSpaceCh).length
  else none

/-- Attempt of `^Created at:\s*(\d{4})-\d{2}-\d{2}` at a line start
(`\s*` is maximal since a digit is not whitespace). -/
def tryCreated (t : List Char) : Option Nat :=
  if ("Created at:".data).isPrefixOf t then
    match (t.drop 11).dropWhile isSpaceCh with
    | a :: b :: c :: d :: '-' :: e :: f :: '-' :: g :: h :: _ =>
      if isDigitCh a && isDigitCh b && isDigitCh c && isDigitCh d &&
         isDigitCh e && isDigitCh f && isDigitCh g && isDigitCh h
      then some (dec4 a b c d) else none
    | _ => none
  else none

/-- Position just after the first newline, if any. -/
def afterNewline : List Char → Option (List Char)
  | [] => none
  | '\n' :: r => some r
  | _ :: r => afterNewline r

/-- `re.search(..., re.MULTILINE)`: try each line start from the top;
each step consumes at least one character, so fuel equal to the input
length suffices. -/
def searchCreatedGo : Nat → List Char → Option Nat
  | 0, t => tryCreated t
  | fuel + 1, t =>
    match tryCreated t with
    | some y => some y
    | none =>
      match afterNewline t with
      | some t2 => searchCreatedGo fuel t2
      | none => none

/-- The `Created at` year found in a front-matter block, if any. -/
def searchCreated (t : List Char) : Option Nat := searchCreatedGo t.length t

/-- `extract_year_from_frontmatter` applied to the note's text and name:
front-matter `Created at` field first, filename fallback otherwise. -/
def extract_year_from_frontmatter (content filename : List Char) : Option Nat :=
  match fmMatch content with
  | some fm =>
    match searchCreated fm with
    | some y => some y
    | none => extract_year_from_filename filename
  | none => extract_year_from_filename filename

/-! ### Glob matching and `ResourceLocator.find_resource`
(`resource_locator.py`)

`search_root.rglob(name)` matches the pattern against the final component
of every strict descendant, with `fnmatch` semantics (`*`, `?`, `[...]`
are wildcards, everything else literal). -/

/-- A compiled `fnmatch` pattern element. -/
inductive GlobTok where
  | star : GlobTok
  | anyc : GlobTok
  | lit : Char → GlobTok
  | chSet : Bool → List Char → GlobTok
deriving DecidableEq, Repr

/-- Parse a `[...]` character class after the opening bracket: optional
`!` negation, a first (possibly `]`) member, then everything up to the
closing `]`. `none` when there is no closing bracket (the `[` is then a
literal). -/
def parseSet (s : List Char) : Option ((Bool × List Char) × List Char) :=
  let negPair : Bool × List Char := match s with
    | '!' :: r => (true, r)
    | _ => (false, s)
  match negPair.2 with
  | [] => none
  | c :: r1 =>
    match r1.findIdx? (fun ch => ch == ']') with
    | some j => some ((negPair.1, c :: r1.take j), r1.drop (j + 1))
    | none => none

/-- Compile a pattern to tokens (each step consumes at least one pattern
character, so fuel equal to the pattern length suffices). -/
def tokenizeGo : Nat → List Char → List GlobTok
  | 0, _ => []
  | _ + 1, [] => []
  | fuel + 1, c :: r =>
    if c == '*' then .star :: tokenizeGo fuel r
    else if c == '?' then .anyc :: tokenizeGo fuel r
    else if c == '[' then
      match parseSet r with
      | some ((neg, items), rest) => .chSet neg items :: tokenizeGo fuel rest
      | none => .lit '[' :: tokenizeGo fuel r
    else .lit c :: tokenizeGo fuel r

/-- Compiled form of an `fnmatch` pattern. -/
def tokenize (p : List Char) : List GlobTok := tokenizeGo p.length p

/-- Membership of a character in a parsed class (with `a-b` ranges). -/
def matchChSet : List Char → Char → Bool
  | a :: '-' :: b :: rest, c => (a ≤ c && c ≤ b) || matchChSet rest c
  | a :: rest, c => a == c || matchChSet rest c
  | [], _ => false

/-- Full-string token matching with backtracking for `*` (the sum of the
token count and the string length strictly decreases at each step, so the
fuel used below suffices). -/
def matchToksGo : Nat → List GlobTok → List Char → Bool
  | 0, ts, s => ts.isEmpty && s.isEmpty
  | _ + 1, [], s => s.isEmpty
  | fuel + 1, .star :: ts, s =>
    matchToksGo fuel ts s ||
      (match s with
       | [] => false
       | _ :: t => matchToksGo fuel (.star :: ts) t)
  | fuel + 1, .anyc :: ts, s =>
    match s with
    | [] => false
    | _ :: t => matchToksGo fuel ts t
  | fuel + 1, .lit c :: ts, s =>
    match s with
    | [] => false
    | x :: t => x == c && matchToksGo fuel ts t
  | fuel + 1, .chSet neg items :: ts, s =>
    match s with
    | [] => false
    | x :: t => (matchChSet items x != neg) && matchToksGo fuel ts t

/-- `fnmatch` of one path component against a glob pattern. -/
def fnmatchComp (pat s : List Char) : Bool :=
  matchToksGo (pat.length + s.length + 1) (tokenize pat) s

/-- The filesystem entries `rglob` walks over (files flagged `true`,
directories `false`; `path.is_file()` keeps only the former). -/
def FS.entriesList (fs : FS) : List (PPath × Bool) :=
  fs.files.map (fun e => (e.1, true)) ++ fs.dirs.map (fun d => (d, false))

/-- The body of `ResourceLocator.find_resource` over an explicit
enumeration of walked entries: keep the regular files strictly under the
root whose final name component matches the glob pattern. -/
def find_resource_entries (name : List Char) (root : PPath)
    (entries : List (PPath × Bool)) : List PPath :=
  (entries.filter
    (fun e => e.2 && strictUnder root e.1 && fnmatchComp name (lastComp e.1))).map
    (fun e => e.1)

/-- `ResourceLocator.find_resource` on a filesystem state. -/
def find_resource (fs : FS) (name : List Char) (root : PPath) : List PPath :=
  find_resource_entries name root fs.entriesList

/-- `find_resource` when an `OSError`/`PermissionError` interrupts the
walk after `k` entries have been consumed: the loop's accumulated results
are returned, not discarded (`errAfter = none` is the error-free walk). -/
def find_resource_walk (name : List Char) (root : PPath)
    (entries : List (PPath × Bool)) (errAfter : Option Nat) : List PPath :=
  find_resource_entries name root
    (match errAfter with
     | none => entries
     | some k => entries.take k)

/-! ### `get_unique_filename` (`resource_manager.py`, duplicated in
`sort_md_by_year.py`)

The Python `while True` loop tries `f"{stem}_{counter}{suffix}"` for
`counter = 1, 2, 3, …` and returns the first candidate that does not
exist. On a (finite) filesystem that least counter exists — the
candidates are pairwise distinct — which is what makes the loop total;
the definition below returns exactly the value the loop returns. -/

/-- Digit characters decode as expected. -/
def digitChr_toNat : ∀ d, d < 10 → (digitChr d).toNat = 48 + d := by
  intro d h
  interval_cases d <;> decide

/-- `natVal` is a left inverse of the fuelled decimal rendering. -/
def natVal_natStrGo : ∀ fuel n, n ≤ fuel → natVal (natStrGo fuel n) = n := by
  intro fuel
  induction fuel with
  | zero =>
    intro n h
    have : n = 0 := Nat.le_zero.mp h
    subst this
    decide
  | succ fuel ih =>
    intro n h
    by_cases hn : n < 10
    · have ht := digitChr_toNat n hn
      simp [natStrGo, hn, natVal, ht]
    · have hdiv : n / 10 ≤ fuel := by
        have : n / 10 < n := Nat.div_lt_self (by omega) (by omega)
        omega
      have hmod := digitChr_toNat (n % 10) (Nat.mod_lt n (by omega))
      have hv := ih (n / 10) hdiv
      simp [natStrGo, hn, natVal, List.foldl_append] at *
      rw [hv, hmod]
      omega

/-- Decimal rendering is injective. -/
def natStr_inj : ∀ n m, natStr n = natStr m → n = m := by
  intro n m h
  have h1 := natVal_natStrGo n n le_rfl
  have h2 := natVal_natStrGo m m le_rfl
  unfold natStr at h
  rw [h] at h1
  omega

/-- The rename candidates for a fixed target are pairwise distinct. -/
def uniqueCandidate_inj : ∀ target n m,
    uniqueCandidate target n = uniqueCandidate target m → n = m := by
  intro t n m h
  unfold uniqueCandidate at h
  have hcomps : t.comps.dropLast ++
      [(splitStem (lastComp t)).1 ++ '_' :: natStr n ++ (splitStem (lastComp t)).2] =
      t.comps.dropLast ++
      [(splitStem (lastComp t)).1 ++ '_' :: natStr m ++ (splitStem (lastComp t)).2] := by
    have := congrArg PPath.comps h
    simpa using this
  have hsing := List.append_cancel_left hcomps
  have hname : (splitStem (lastComp t)).1 ++ '_' :: natStr n ++ (splitStem (lastComp t)).2 =
      (splitStem (lastComp t)).1 ++ '_' :: natStr m ++ (splitStem (lastComp t)).2 := by
    simpa using hsing
  have htail := List.append_cancel_right hname
  have hcons := List.append_cancel_left htail
  have hns : natStr n = natStr m := by
    injection hcons
  exact natStr_inj n m hns

/-- On any filesystem some rename candidate is free: infinitely many
pairwise-distinct candidates cannot all lie in the finite path list. -/
def uq_free (fs : FS) (target : PPath) :
    ∃ n, fs.pathExists (uniqueCandidate target (n + 1)) = false := by
  by_contra hc
  push_neg at hc
  have h : ∀ n, fs.pathExists (uniqueCandidate target (n + 1)) = true := by
    intro n
    cases hx : fs.pathExists (uniqueCandidate target (n + 1)) with
    | true => rfl
    | false => exact absurd hx (hc n)
  have hmem : ∀ n, uniqueCandidate target (n + 1) ∈ fs.allPaths :=
    fun n => of_decide_eq_true (h n)
  have hinj : Function.Injective (fun n => uniqueCandidate target (n + 1)) := by
    intro a b hab
    have := uniqueCandidate_inj target (a + 1) (b + 1) hab
    omega
  have hinf : (Set.range (fun n => uniqueCandidate target (n + 1))).Infinite :=
    Set.infinite_range_of_injective hinj
  have hfin : (Set.range (fun n => uniqueCandidate target (n + 1))).Finite := by
    refine (fs.allPaths.finite_toSet).subset ?_
    rintro x ⟨n, rfl⟩
    exact hmem n
  exact hinf hfin

/-- `get_unique_filename`: the target itself when nothing exists there,
otherwise the first candidate `stem_N{suffix}` (N = 1, 2, 3, …) that does
not exist — realised as the least free index of the candidate sequence,
which is exactly where the source's loop stops. -/
def get_unique_filename (fs : FS) (target : PPath) : PPath :=
  if fs.pathExists target then uniqueCandidate target (Nat.find (uq_free fs target) + 1)
  else target

/-! ### `ResourceManager.move_resource_file` (`resource_manager.py`; the
`move_resource_file` in `sort_md_by_year.py` is the same logic with
`execute` passed as an argument and the hash comparison inlined).

`failRename` is the oracle for the `OSError` branch of the `try` blocks:
when it is set, the rename raises and the `except` branch returns
`(False, None, 'error')`. -/

def move_resource_file (execute failRename : Bool) (fs : FS)
    (source_resource target_resource md_file : PPath) (resource_name : List Char) :
    (Bool × Option (List Char) × String) × FS :=
  if fs.pathExists source_resource = false then ((true, none, "missing"), fs)
  else if fs.pathExists target_resource then
    if files_are_identical fs source_resource target_resource then
      ((true, none, "identical"), fs)
    else
      let unique_target := get_unique_filename fs target_resource
      let new_filename := lastComp unique_target
      if execute then
        if failRename then ((false, none, "error"), fs)
        else
          ((true, some new_filename, "renamed"),
            (update_resource_link (fs.renameFile source_resource unique_target)
              md_file resource_name new_filename).2)
      else ((true, some new_filename, "renamed"), fs)
  else
    if execute then
      if failRename then ((false, none, "error"), fs)
      else
        ((true, none, "moved"),
          (fs.mkdirParents (parent target_resource)).renameFile source_resource target_resource)
    else ((true, none, "moved"), fs)

/-! ### `ResourceAnalyzer` (`resource_analyzer.py`) -/

/-- `ResourceReference` dataclass. -/
structure ResourceReference where
  md_file_path : PPath
  resource_name : List Char
  resource_actual_path : Option PPath
  resource_hash : Option (List Char)
deriving DecidableEq, Repr

/-- Split a link string on `/` (accumulator holds the current component
reversed). -/
def splitSlashGo (acc : List Char) : List Char → List (List Char)
  | [] => [acc.reverse]
  | '/' :: r => acc.reverse :: splitSlashGo [] r
  | c :: r => splitSlashGo (c :: acc) r

/-- `Path(link).name`: the last nonempty slash-separated component. -/
def pathName (link : List Char) : List Char :=
  (((splitSlashGo [] link).filter (fun c => !c.isEmpty)).getLast?).getD []

/-- `extract_resource_links` as the sources call it: read the note, scan
its text, and treat a read error as no references. -/
def FS.extract_resource_links (fs : FS) (p : PPath) : List (List Char) :=
  match FS.read fs p with
  | some t => extractScan t
  | none => []

/-- The reference built by `build_reference_array` for one link found in
one markdown file: locate all candidates, then the zero / one / many case
split of the source (in the many case, hash all candidates; exactly one
distinct non-`None` hash means the instances are treated as one resource
at the first found path with the first candidate's hash, anything else is
flagged `'CONFLICT'` at the first found path). -/
def mkReference (fs : FS) (base : PPath) (md : PPath) (link : List Char) :
    ResourceReference :=
  let name := pathName link
  match find_resource fs name base with
  | [] => ⟨md, name, none, none⟩
  | [rp] => ⟨md, name, some rp, compute_hash fs rp⟩
  | rp :: rp2 :: rest =>
    if (((rp :: rp2 :: rest).map (compute_hash fs)).filterMap id).dedup.length = 1
    then ⟨md, name, some rp, compute_hash fs rp⟩
    else ⟨md, name, some rp, some CONFLICT⟩

/-- The markdown files `base_path.rglob('*.md')` yields. -/
def mdFiles (fs : FS) (base : PPath) : List (PPath × Option (List Char)) :=
  fs.files.filter
    (fun e => strictUnder base e.1 && fnmatchComp ("*.md".data) (lastComp e.1))

/-- `ResourceAnalyzer.build_reference_array`. -/
def build_reference_array (fs : FS) (base : PPath) : List ResourceReference :=
  (mdFiles fs base).flatMap
    (fun e => (fs.extract_resource_links e.1).map (mkReference fs base e.1))

/-- `defaultdict(list)` append: extend the existing bucket, or create a
new key at the end (Python dicts preserve insertion order). -/
def addToGroup {κ α : Type} [DecidableEq κ] (key : κ) (v : α) :
    List (κ × List α) → List (κ × List α)
  | [] => [(key, [v])]
  | (k, vs) :: rest =>
    if k = key then (k, vs ++ [v]) :: rest else (k, vs) :: addToGroup key v rest

/-- Fold a list into buckets, each element contributing an optional
key/value pair. -/
def groupFold {β κ α : Type} [DecidableEq κ] (f : β → Option (κ × α)) (l : List β)
    (m0 : List (κ × List α)) : List (κ × List α) :=
  l.foldl
    (fun m b =>
      match f b with
      | none => m
      | some (k, v) => addToGroup k v m) m0

/-- Python truthiness of an optional hash string (`None` and `''` are
falsy). -/
def hashTruthy : Option (List Char) → Bool
  | none => false
  | some s => !s.isEmpty

/-- `ResourceAnalyzer.detect_conflicts`: group the references with a
truthy, non-`'CONFLICT'` hash by resource name, and keep the names whose
references carry more than one distinct hash. -/
def detect_conflicts (references : List ResourceReference) :
    List (List Char × List ResourceReference) :=
  let by_name := groupFold
    (fun r =>
      if hashTruthy r.resource_hash && r.resource_hash != some CONFLICT
      then some (r.resource_name, r) else none)
    references []
  by_name.filter
    (fun e =>
      1 < ((e.2.filterMap
        (fun r => if hashTruthy r.resource_hash then r.resource_hash else none)).dedup.length))

/-- `ResourceAnalyzer.group_by_resource`: map each resolved, non-conflict
reference's actual path to the markdown files referencing it. -/
def group_by_resource (references : List ResourceReference) :
    List (PPath × List PPath) :=
  groupFold
    (fun r =>
      match r.resource_actual_path with
      | none => none
      | some p =>
        if r.resource_hash == some CONFLICT then none
        else some (p, r.md_file_path))
    references []

/-- `ResourceAnalyzer.find_lowest_common_ancestor` (`base` is
`self.base_path`): empty list → base; single path → its parent; otherwise
intersect the parent sets and take the entry with the most parts (the
maximum is unique because the common ancestors form a chain). -/
def find_lowest_common_ancestor (base : PPath) (paths : List PPath) : PPath :=
  match paths with
  | [] => base
  | [p] => parent p
  | p :: q :: rest =>
    let common := (parentsList p).filter
      (fun a => (q :: rest).all (fun x => decide (a ∈ parentsList x)))
    match common with
    | [] => base
    | c :: cs => cs.foldl (fun acc x => if partsLen acc < partsLen x then x else acc) c

/-! ### `ResourceOptimizer` (`resource_optimizer.py`) -/

/-- `ancestor / "_resources" / resource_path.name`. -/
def optimal_location (base : PPath) (md_files : List PPath) (resource_path : PPath) :
    PPath :=
  childPath (childPath (find_lowest_common_ancestor base md_files) ("_resources".data))
    (lastComp resource_path)

/-- The resolved paths of all conflicting references (the set the Phase-3
loop skips). -/
def conflictPathsOf (conflicts : List (List Char × List ResourceReference)) :
    List PPath :=
  conflicts.flatMap (fun e => e.2.filterMap (fun r => r.resource_actual_path))

/-- Phase 3 of `optimize_resources`: walk the groups in order, skipping
conflicts and already-optimal resources, queueing a move for the rest.
Returns the queued moves together with the `skipped_conflict` and
`skipped_optimal` counters. -/
def phase3 (base : PPath) (cp : List PPath) :
    List (PPath × List PPath) → List (PPath × PPath × List PPath) × Nat × Nat
  | [] => ([], 0, 0)
  | (rp, mds) :: rest =>
    let acc := phase3 base cp rest
    if rp ∈ cp then (acc.1, acc.2.1 + 1, acc.2.2)
    else if rp = optimal_location base mds rp then (acc.1, acc.2.1, acc.2.2 + 1)
    else ((rp, optimal_location base mds rp, mds) :: acc.1, acc.2.1, acc.2.2)

/-- `str(path)` with forward slashes. -/
def pathStr (p : PPath) : List Char :=
  match p.comps with
  | [] => if p.abs then "/".data else ".".data
  | c :: rest => (if p.abs then "/".data else []) ++ c ++ rest.flatMap (fun x => '/' :: x)

/-- `new.relative_to(base)` (`none` models the `ValueError`). -/
def relativeTo (p base : PPath) : Option PPath :=
  if p.abs == base.abs && base.comps.isPrefixOf p.comps
  then some ⟨false, p.comps.drop base.comps.length⟩
  else none

/-- `ResourceOptimizer._update_markdown_link`: rewrite one note to point
at the moved resource, using a path relative to the note's directory when
possible, else the `_resources/name` fallback; a read failure mutates
nothing and reports `False`. -/
def update_markdown_link (fs : FS) (md : PPath) (resource_name : List Char)
    (new_resource_path : PPath) : Bool × FS :=
  match FS.read fs md with
  | none => (false, fs)
  | some t =>
    let rel := match relativeTo new_resource_path (parent md) with
      | some r => r
      | none => ⟨false, ["_resources".data, resource_name]⟩
    (true, fs.writeFile md (optSub resource_name (pathStr rel) t))

/-- `ResourceOptimizer._move_resource`: in execute mode create the target
directory, rename, and rewrite every referencing note; in dry-run mode do
nothing and report success. `failOp` is the `OSError` oracle of the `try`
block. -/
def move_resource (execute failOp : Bool) (fs : FS) (source target : PPath)
    (md_files : List PPath) : Bool × FS :=
  if execute then
    if failOp then (false, fs)
    else
      let fs1 := (fs.mkdirParents (parent target)).renameFile source target
      (true, md_files.foldl
        (fun a md => (update_markdown_link a md (lastComp source) target).2) fs1)
  else (true, fs)

/-- Phase 4 of `optimize_resources`: execute (or simulate) each queued
move in order, counting successes and errors. -/
def phase4 (execute : Bool) (failAt : Nat → Bool) :
    List (PPath × PPath × List PPath) → Nat → FS → Nat × Nat × FS
  | [], _, fs => (0, 0, fs)
  | (src, tgt, mds) :: rest, i, fs =>
    let step := move_resource execute (failAt i) fs src tgt mds
    let acc := phase4 execute failAt rest (i + 1) step.2
    if step.1 then (acc.1 + 1, acc.2.1, acc.2.2) else (acc.1, acc.2.1 + 1, acc.2.2)

/-- The summary counters printed by `optimize_resources`. -/
structure OptStats where
  moved : Nat
  skipped_conflict : Nat
  skipped_optimal : Nat
  errors : Nat
deriving DecidableEq, Repr

/-- `ResourceOptimizer.optimize_resources`: phases 1–3 compute the
decisions from the current filesystem state, phase 4 then executes or
simulates them. The queued moves (the reported decisions) are returned
alongside the stats and the final filesystem state. -/
def optimize_resources (execute : Bool) (failAt : Nat → Bool) (base : PPath) (fs : FS) :
    OptStats × List (PPath × PPath × List PPath) × FS :=
  let references := build_reference_array fs base
  let conflicts := detect_conflicts references
  let grouped := group_by_resource references
  let cp := conflictPathsOf conflicts
  let plan := phase3 base cp grouped
  let run := phase4 execute failAt plan.1 0 fs
  ({ moved := run.1, skipped_conflict := plan.2.1, skipped_optimal := plan.2.2,
     errors := run.2.1 },
    plan.1, run.2.2)

/-- The note rewrites implied by a list of queued moves: pairs of
(markdown file, resource source path). -/
def noteWrites (moves : List (PPath × PPath × List PPath)) : List (PPath × PPath) :=
  moves.flatMap (fun m => m.2.2.map (fun md => (md, m.1)))

/-! ### Spec-side predicates and concrete fixtures used by the theorems -/

/-- A filename free of glob metacharacters (for such names `fnmatch`
degenerates to equality). -/
def noGlobMeta (name : List Char) : Prop :=
  ∀ c ∈ name, c ≠ '*' ∧ c ≠ '?' ∧ c ≠ '['

/-- Fixture: a vault whose single note references `r.png` by an embedded
link, with three same-named candidate files: the first unreadable, the
other two with identical content. -/
def c3fs : FS :=
  ⟨[(⟨true, ["v".data, "n.md".data]⟩, some ("![[_resources/r.png]]".data)),
    (⟨true, ["v".data, "a".data, "r.png".data]⟩, none),
    (⟨true, ["v".data, "b".data, "r.png".data]⟩, some ("x".data)),
    (⟨true, ["v".data, "c".data, "r.png".data]⟩, some ("x".data))],
   [⟨true, ["v".data]⟩]⟩

/-- Fixture: a vault with two notes in sibling directories under
`/v/2023` referencing `p.png`, which already sits at
`/v/2023/_resources/p.png` — its optimal location. -/
def c5fs : FS :=
  ⟨[(⟨true, ["v".data, "2023".data, "a".data, "n1.md".data]⟩,
      some ("![[_resources/p.png]]".data)),
    (⟨true, ["v".data, "2023".data, "b".data, "n2.md".data]⟩,
      some ("![[_resources/p.png]]".data)),
    (⟨true, ["v".data, "2023".data, "_resources".data, "p.png".data]⟩,
      some ("IMG".data))],
   []⟩

/-- Fixture: target `/v/f.png` and its first rename candidate
`/v/f_1.png` both exist; `/v/f_2.png` is free. -/
def c6fs : FS :=
  ⟨[(⟨true, ["v".data, "f.png".data]⟩, some ("A".data)),
    (⟨true, ["v".data, "f_1.png".data]⟩, some ("B".data))],
   []⟩

/-- Fixture: a note holding a single bare (non-embedded) resource link. -/
def c2fs : FS :=
  ⟨[(⟨true, ["n.md".data]⟩, some ("[[_resources/a.png]]".data))], []⟩

/-- Fixture: a lone reference whose path resolved but whose fingerprint
computation failed. -/
def c10refs : List ResourceReference :=
  [⟨⟨true, ["v".data, "n.md".data]⟩, "x.png".data,
    some ⟨true, ["v".data, "x.png".data]⟩, none⟩]

/-! ## Theorems

Shared helper lemmas first, then one theorem per claim (with a witness
where the claim theorem carries hypotheses). -/

theorem mem_of_lookup_eq_some {α β : Type} [DecidableEq α] {l : List (α × β)} {k : α}
    {v : β} (h : l.lookup k = some v) : (k, v) ∈ l := by
  induction l with
  | nil => simp [List.lookup] at h
  | cons e rest ih =>
    rw [List.lookup] at h
    by_cases hk : k = e.1
    · simp [hk] at h
      subst h
      subst hk
      exact List.mem_cons.mpr (Or.inl rfl)
    · have : (k == e.1) = false := by simp [hk]
      rw [this] at h
      exact List.mem_cons_of_mem _ (ih h)

theorem mem_addToGroup_val {κ α : Type} [DecidableEq κ] {key : κ} {v : α}
    {m : List (κ × List α)} {k : κ} {l : List α}
    (hm : (k, l) ∈ addToGroup key v m) {x : α} (hx : x ∈ l) :
    (∃ l0, (k, l0) ∈ m ∧ x ∈ l0) ∨ (k = key ∧ x = v) := by
  induction m with
  | nil =>
    simp [addToGroup] at hm
    obtain ⟨hk, hl⟩ := hm
    subst hk; subst hl
    simp at hx
    exact Or.inr ⟨rfl, hx⟩
  | cons e rest ih =>
    obtain ⟨k0, vs⟩ := e
    by_cases hk0 : k0 = key
    · simp [addToGroup, hk0] at hm
      rcases hm with ⟨hk, hl⟩ | hm
      · subst hk; subst hl
        rcases List.mem_append.mp hx with hx1 | hx2
        · exact Or.inl ⟨vs, by simp [hk0], hx1⟩
        · simp at hx2
          exact Or.inr ⟨hk0.symm ▸ rfl, hx2⟩
      · exact Or.inl ⟨l, List.mem_cons_of_mem _ hm, hx⟩
    · simp only [addToGroup, if_neg hk0] at hm
      rcases List.mem_cons.mp hm with hm1 | hm2
      · exact Or.inl ⟨l, by rw [hm1]; exact List.mem_cons_self _ _, hx⟩
      · rcases ih hm2 with ⟨l0, hl0, hxl0⟩ | hr
        · exact Or.inl ⟨l0, List.mem_cons_of_mem _ hl0, hxl0⟩
        · exact Or.inr hr

theorem addToGroup_mem_superset {κ α : Type} [DecidableEq κ] (key : κ) (v : α)
    {m : List (κ × List α)} {k : κ} {l : List α} (h : (k, l) ∈ m) :
    ∃ l2, (k, l2) ∈ addToGroup key v m ∧ l ⊆ l2 := by
  induction m with
  | nil => simp at h
  | cons e rest ih =>
    obtain ⟨k0, vs⟩ := e
    by_cases hk0 : k0 = key
    · rw [show addToGroup key v ((k0, vs) :: rest) = (k0, vs ++ [v]) :: rest by
        simp [addToGroup, hk0]]
      rcases List.mem_cons.mp h with h1 | h2
      · have hk : k = k0 := congrArg Prod.fst h1
        have hl : l = vs := congrArg Prod.snd h1
        refine ⟨vs ++ [v], ?_, ?_⟩
        · rw [hk]
          exact List.mem_cons.mpr (Or.inl rfl)
        · rw [hl]
          exact List.subset_append_left _ _
      · exact ⟨l, List.mem_cons_of_mem _ h2, List.Subset.refl _⟩
    · rw [show addToGroup key v ((k0, vs) :: rest) = (k0, vs) :: addToGroup key v rest by
        simp [addToGroup, hk0]]
      rcases List.mem_cons.mp h with h1 | h2
      · exact ⟨l, List.mem_cons.mpr (Or.inl h1), List.Subset.refl _⟩
      · obtain ⟨l2, hl2, hsub⟩ := ih h2
        exact ⟨l2, List.mem_cons_of_mem _ hl2, hsub⟩

theorem addToGroup_self_mem {κ α : Type} [DecidableEq κ] (key : κ) (v : α)
    (m : List (κ × List α)) : ∃ l, (key, l) ∈ addToGroup key v m ∧ v ∈ l := by
  induction m with
  | nil => exact ⟨[v], by simp [addToGroup], by simp⟩
  | cons e rest ih =>
    obtain ⟨k0, vs⟩ := e
    by_cases hk0 : k0 = key
    · refine ⟨vs ++ [v], ?_, by simp⟩
      rw [show addToGroup key v ((k0, vs) :: rest) = (k0, vs ++ [v]) :: rest by
        simp [addToGroup, hk0]]
      rw [← hk0]
      exact List.mem_cons.mpr (Or.inl rfl)
    · obtain ⟨l, hl, hv⟩ := ih
      exact ⟨l, by simp only [addToGroup, if_neg hk0]; exact List.mem_cons_of_mem _ hl, hv⟩

theorem groupFold_mem_val {β κ α : Type} [DecidableEq κ] (f : β → Option (κ × α))
    (l : List β) {m0 : List (κ × List α)} {k : κ} {bl : List α} {x : α}
    (hm : (k, bl) ∈ groupFold f l m0) (hx : x ∈ bl) :
    (∃ b ∈ l, f b = some (k, x)) ∨ ∃ l0, (k, l0) ∈ m0 ∧ x ∈ l0 := by
  induction l generalizing m0 with
  | nil => exact Or.inr ⟨bl, hm, hx⟩
  | cons b bs ih =>
    rw [groupFold, List.foldl_cons] at hm
    rcases ih hm with h1 | h2
    · obtain ⟨b0, hb0, hfb0⟩ := h1
      exact Or.inl ⟨b0, List.mem_cons_of_mem _ hb0, hfb0⟩
    · obtain ⟨l0, hl0, hxl0⟩ := h2
      rcases hf : f b with _ | kv
      · rw [hf] at hl0
        exact Or.inr ⟨l0, hl0, hxl0⟩
      · obtain ⟨kb, vb⟩ := kv
        rw [hf] at hl0
        rcases mem_addToGroup_val hl0 hxl0 with ⟨l1, hl1, hxl1⟩ | ⟨hk, hxv⟩
        · exact Or.inr ⟨l1, hl1, hxl1⟩
        · subst hk; subst hxv
          exact Or.inl ⟨b, List.mem_cons_self _ _, hf⟩

theorem groupFold_mem_superset {β κ α : Type} [DecidableEq κ] (f : β → Option (κ × α))
    (bs : List β) {m : List (κ × List α)} {k : κ} {l1 : List α} (h : (k, l1) ∈ m) :
    ∃ l2, (k, l2) ∈ groupFold f bs m ∧ l1 ⊆ l2 := by
  induction bs generalizing m l1 with
  | nil => exact ⟨l1, h, List.Subset.refl _⟩
  | cons b rest ih =>
    rw [groupFold, List.foldl_cons]
    rcases hf : f b with _ | kv
    · exact ih h
    · obtain ⟨kb, vb⟩ := kv
      obtain ⟨lmid, hmid, hsub1⟩ := addToGroup_mem_superset kb vb h
      obtain ⟨l2, hl2, hsub2⟩ := ih hmid
      exact ⟨l2, hl2, hsub1.trans hsub2⟩

theorem groupFold_contains {β κ α : Type} [DecidableEq κ] (f : β → Option (κ × α))
    {l : List β} {b : β} {k : κ} {v : α} (hb : b ∈ l) (hf : f b = some (k, v))
    (m0 : List (κ × List α)) : ∃ bl, (k, bl) ∈ groupFold f l m0 ∧ v ∈ bl := by
  induction l generalizing m0 with
  | nil => simp at hb
  | cons b0 bs ih =>
    rw [groupFold, List.foldl_cons]
    rcases List.mem_cons.mp hb with hb1 | hb2
    · subst hb1
      rw [hf]
      obtain ⟨lmid, hmid, hvmid⟩ := addToGroup_self_mem k v m0
      obtain ⟨l2, hl2, hsub⟩ := groupFold_mem_superset f bs hmid
      exact ⟨l2, hl2, hsub hvmid⟩
    · exact ih hb2 _

theorem addToGroup_keys {κ α : Type} [DecidableEq κ] (key : κ) (v : α)
    (m : List (κ × List α)) :
    (addToGroup key v m).map Prod.fst =
      if key ∈ m.map Prod.fst then m.map Prod.fst else m.map Prod.fst ++ [key] := by
  induction m with
  | nil => simp [addToGroup]
  | cons e rest ih =>
    obtain ⟨k0, vs⟩ := e
    by_cases hk0 : k0 = key
    · rw [show addToGroup key v ((k0, vs) :: rest) = (k0, vs ++ [v]) :: rest by
        simp [addToGroup, hk0]]
      simp [hk0]
    · rw [show addToGroup key v ((k0, vs) :: rest) = (k0, vs) :: addToGroup key v rest by
        simp [addToGroup, hk0]]
      have hne : ¬ key = k0 := fun h => hk0 h.symm
      simp only [List.map_cons, ih]
      by_cases hmem : key ∈ rest.map Prod.fst
      · simp [hmem, hne]
      · simp [hmem, hne]

theorem groupFold_keys_nodup {β κ α : Type} [DecidableEq κ] (f : β → Option (κ × α))
    (l : List β) (m0 : List (κ × List α)) (h : (m0.map Prod.fst).Nodup) :
    ((groupFold f l m0).map Prod.fst).Nodup := by
  induction l generalizing m0 with
  | nil => exact h
  | cons b bs ih =>
    rw [groupFold, List.foldl_cons]
    rcases hf : f b with _ | kv
    · exact ih m0 h
    · obtain ⟨kb, vb⟩ := kv
      refine ih _ ?_
      rw [addToGroup_keys]
      by_cases hmem : kb ∈ m0.map Prod.fst
      · simpa [hmem] using h
      · simp only [if_neg hmem]
        simpa [List.nodup_append, hmem] using h

theorem keys_nodup_unique_val {κ α : Type} {m : List (κ × α)}
    (h : (m.map Prod.fst).Nodup) {k : κ} {a b : α}
    (ha : (k, a) ∈ m) (hb : (k, b) ∈ m) : a = b := by
  induction m with
  | nil => simp at ha
  | cons e rest ih =>
    rcases List.mem_cons.mp ha with ha1 | ha2 <;> rcases List.mem_cons.mp hb with hb1 | hb2
    · rw [← ha1] at hb1
      exact (congrArg Prod.snd hb1).symm
    · exfalso
      have hk : k = e.1 := congrArg Prod.fst ha1
      have : k ∈ rest.map Prod.fst := List.mem_map.mpr ⟨(k, b), hb2, rfl⟩
      rw [List.map_cons, List.nodup_cons] at h
      exact h.1 (hk ▸ this)
    · exfalso
      have hk : k = e.1 := congrArg Prod.fst hb1
      have : k ∈ rest.map Prod.fst := List.mem_map.mpr ⟨(k, a), ha2, rfl⟩
      rw [List.map_cons, List.nodup_cons] at h
      exact h.1 (hk ▸ this)
    · rw [List.map_cons, List.nodup_cons] at h
      exact ih h.2 ha2 hb2

theorem phase3_moves_spec (base : PPath) (cp : List PPath)
    (gs : List (PPath × List PPath)) :
    (phase3 base cp gs).1 = gs.filterMap
      (fun g => if g.1 ∈ cp then none
        else if g.1 = optimal_location base g.2 g.1 then none
        else some (g.1, optimal_location base g.2 g.1, g.2)) := by
  induction gs with
  | nil => rfl
  | cons g rest ih =>
    obtain ⟨rp, mds⟩ := g
    have hstep : phase3 base cp ((rp, mds) :: rest) =
        (if rp ∈ cp then
          ((phase3 base cp rest).1, (phase3 base cp rest).2.1 + 1, (phase3 base cp rest).2.2)
        else if rp = optimal_location base mds rp then
          ((phase3 base cp rest).1, (phase3 base cp rest).2.1, (phase3 base cp rest).2.2 + 1)
        else
          ((rp, optimal_location base mds rp, mds) :: (phase3 base cp rest).1,
            (phase3 base cp rest).2.1, (phase3 base cp rest).2.2)) := rfl
    rw [hstep, List.filterMap_cons]
    by_cases h1 : rp ∈ cp
    · rw [if_pos h1]
      simp only [if_pos h1]
      exact ih
    · rw [if_neg h1]
      simp only [if_neg h1]
      by_cases h2 : rp = optimal_location base mds rp
      · rw [if_pos h2]
        simp only [if_pos h2]
        exact ih
      · rw [if_neg h2]
        simp only [if_neg h2]
        simp [ih]

theorem phase3_optimal_pos (base : PPath) (cp : List PPath)
    {gs : List (PPath × List PPath)} {rp : PPath} {mds : List PPath}
    (h : (rp, mds) ∈ gs) (h1 : rp ∉ cp)
    (h2 : rp = optimal_location base mds rp) : 1 ≤ (phase3 base cp gs).2.2 := by
  induction gs with
  | nil => simp at h
  | cons g rest ih =>
    obtain ⟨rp0, mds0⟩ := g
    have hstep : phase3 base cp ((rp0, mds0) :: rest) =
        (if rp0 ∈ cp then
          ((phase3 base cp rest).1, (phase3 base cp rest).2.1 + 1, (phase3 base cp rest).2.2)
        else if rp0 = optimal_location base mds0 rp0 then
          ((phase3 base cp rest).1, (phase3 base cp rest).2.1, (phase3 base cp rest).2.2 + 1)
        else
          ((rp0, optimal_location base mds0 rp0, mds0) :: (phase3 base cp rest).1,
            (phase3 base cp rest).2.1, (phase3 base cp rest).2.2)) := rfl
    rw [hstep]
    rcases List.mem_cons.mp h with hh | ht
    · have hrp : rp0 = rp := (congrArg Prod.fst hh).symm
      have hmds : mds0 = mds := (congrArg Prod.snd hh).symm
      subst hrp; subst hmds
      rw [if_neg h1, if_pos h2]
      show 1 ≤ (phase3 base cp rest).2.2 + 1
      omega
    · have hrest := ih ht
      by_cases hc1 : rp0 ∈ cp
      · rw [if_pos hc1]
        exact hrest
      · rw [if_neg hc1]
        by_cases hc2 : rp0 = optimal_location base mds0 rp0
        · rw [if_pos hc2]
          show 1 ≤ (phase3 base cp rest).2.2 + 1
          omega
        · rw [if_neg hc2]
          exact hrest

theorem phase4_dry (failAt : Nat → Bool) (moves : List (PPath × PPath × List PPath))
    (i : Nat) (fs : FS) : phase4 false failAt moves i fs = (moves.length, 0, fs) := by
  induction moves generalizing i with
  | nil => rfl
  | cons m rest ih =>
    obtain ⟨src, tgt, mds⟩ := m
    simp [phase4, move_resource, ih]

theorem phase4_exec_nofail (moves : List (PPath × PPath × List PPath)) (i : Nat)
    (fs : FS) : (phase4 true (fun _ => false) moves i fs).1 = moves.length ∧
      (phase4 true (fun _ => false) moves i fs).2.1 = 0 := by
  induction moves generalizing i fs with
  | nil => exact ⟨rfl, rfl⟩
  | cons m rest ih =>
    obtain ⟨src, tgt, mds⟩ := m
    constructor
    · simp [phase4, move_resource, (ih (i + 1) _).1]
    · simp [phase4, move_resource, (ih (i + 1) _).2]

theorem phase4_exec_nofail_moved (moves : List (PPath × PPath × List PPath)) (i : Nat)
    (fs : FS) : (phase4 true (fun _ => false) moves i fs).1 = moves.length :=
  (phase4_exec_nofail moves i fs).1

theorem phase4_exec_nofail_errors (moves : List (PPath × PPath × List PPath)) (i : Nat)
    (fs : FS) : (phase4 true (fun _ => false) moves i fs).2.1 = 0 :=
  (phase4_exec_nofail moves i fs).2

/-- C1: in dry-run mode (`execute = False`) no operation mutates the
filesystem — `optimize_resources` returns the state unchanged,
`_move_resource` is the identity on the state, and
`move_resource_file` leaves the state untouched — while the reported
decisions (the queued moves with their targets and referencing-note
lists, the summary counters, and `move_resource_file`'s result triple)
are the ones execute mode computes over the same pre-move state. -/
theorem c1_dry_run_frame (base : PPath) (fs : FS) (failAt : Nat → Bool) :
    (optimize_resources false failAt base fs).2.2 = fs
    ∧ (optimize_resources false failAt base fs).2.1
        = (optimize_resources true (fun _ => false) base fs).2.1
    ∧ (optimize_resources false failAt base fs).1
        = (optimize_resources true (fun _ => false) base fs).1
    ∧ (∀ (failOp : Bool) (src tgt : PPath) (mds : List PPath),
        move_resource false failOp fs src tgt mds = (true, fs))
    ∧ (∀ (failRename : Bool) (src tgt md : PPath) (name : List Char),
        (move_resource_file false failRename fs src tgt md name).2 = fs
        ∧ (move_resource_file false failRename fs src tgt md name).1
            = (move_resource_file true false fs src tgt md name).1) := by
  refine ⟨?_, ?_, ?_, ?_, ?_⟩
  · simp only [optimize_resources, phase4_dry]
  · rfl
  · simp only [optimize_resources, phase4_dry, phase4_exec_nofail_moved,
      phase4_exec_nofail_errors]
  · intro failOp src tgt mds
    rfl
  · intro failRename src tgt md name
    constructor
    · unfold move_resource_file
      split_ifs <;> first | rfl | exact False.elim (by assumption)
    · unfold move_resource_file
      split_ifs <;> first | rfl | exact False.elim (by assumption)

/-- C2 (evaluation at the failing input): a bare resource link
`[[_resources/a.png]]` is extracted by `extract_resource_links`, yet
`update_resource_link` — whose pattern demands the embed marker
`![[` — leaves the note byte-for-byte unchanged, so re-extraction still
yields the old name, contradicting the claimed round trip for bare
links. -/
theorem c2_bare_link_not_rewritten :
    update_resource_link c2fs ⟨true, ["n.md".data]⟩ ("a.png".data) ("b.png".data)
      = (true, c2fs)
    ∧ FS.extract_resource_links c2fs ⟨true, ["n.md".data]⟩ = ["_resources/a.png".data]
    ∧ ("_resources/a.png".data : List Char) ≠ "_resources/b.png".data := by
  refine ⟨by decide, by decide, by decide⟩

/-- C9: `move_resource_file` always reports a status in the closed set
{moved, renamed, missing, identical, error}; its success flag is `true`
exactly when the status is not `error`; a missing source yields
`(True, None, 'missing')` without mutation, and an identical target
yields `(True, None, 'identical')` without mutation. -/
theorem c9_move_status_closed (execute failRename : Bool) (fs : FS)
    (src tgt md : PPath) (name : List Char) :
    ((move_resource_file execute failRename fs src tgt md name).1.2.2 = "moved"
      ∨ (move_resource_file execute failRename fs src tgt md name).1.2.2 = "renamed"
      ∨ (move_resource_file execute failRename fs src tgt md name).1.2.2 = "missing"
      ∨ (move_resource_file execute failRename fs src tgt md name).1.2.2 = "identical"
      ∨ (move_resource_file execute failRename fs src tgt md name).1.2.2 = "error")
    ∧ ((move_resource_file execute failRename fs src tgt md name).1.1 = true
        ↔ (move_resource_file execute failRename fs src tgt md name).1.2.2 ≠ "error")
    ∧ (fs.pathExists src = false →
        move_resource_file execute failRename fs src tgt md name
          = ((true, none, "missing"), fs))
    ∧ (fs.pathExists src = true → fs.pathExists tgt = true →
        files_are_identical fs src tgt = true →
        move_resource_file execute failRename fs src tgt md name
          = ((true, none, "identical"), fs)) := by
  refine ⟨?_, ?_, ?_, ?_⟩
  · unfold move_resource_file
    split_ifs <;> simp
  · unfold move_resource_file
    split_ifs <;> simp
  · intro h
    simp [move_resource_file, h]
  · intro h1 h2 h3
    have h1' : ¬ fs.pathExists src = false := by simp [h1]
    simp [move_resource_file, h1', h2, h3]

/-- C9 witness: the missing-source and identical-target branches at
concrete inputs. -/
theorem c9_move_status_closed_witness :
    ((⟨[], []⟩ : FS).pathExists ⟨true, ["s.png".data]⟩ = false
      ∧ move_resource_file true false ⟨[], []⟩ ⟨true, ["s.png".data]⟩
          ⟨true, ["t.png".data]⟩ ⟨true, ["n.md".data]⟩ ("s.png".data)
        = ((true, none, "missing"), ⟨[], []⟩))
    ∧ (c5fs.pathExists ⟨true, ["v".data, "2023".data, "_resources".data, "p.png".data]⟩
          = true
      ∧ files_are_identical c5fs
          ⟨true, ["v".data, "2023".data, "_resources".data, "p.png".data]⟩
          ⟨true, ["v".data, "2023".data, "_resources".data, "p.png".data]⟩ = true
      ∧ move_resource_file false true c5fs
          ⟨true, ["v".data, "2023".data, "_resources".data, "p.png".data]⟩
          ⟨true, ["v".data, "2023".data, "_resources".data, "p.png".data]⟩
          ⟨true, ["n.md".data]⟩ ("p.png".data)
        = ((true, none, "identical"), c5fs)) := by
  constructor
  · exact ⟨by decide,
      (c9_move_status_closed true false ⟨[], []⟩ ⟨true, ["s.png".data]⟩
        ⟨true, ["t.png".data]⟩ ⟨true, ["n.md".data]⟩ ("s.png".data)).2.2.1 (by decide)⟩
  · exact ⟨by decide, by decide,
      (c9_move_status_closed false true c5fs
        ⟨true, ["v".data, "2023".data, "_resources".data, "p.png".data]⟩
        ⟨true, ["v".data, "2023".data, "_resources".data, "p.png".data]⟩
        ⟨true, ["n.md".data]⟩ ("p.png".data)).2.2.2 (by decide) (by decide) (by decide)⟩

/-- C7: the year of a `Created at: YYYY-MM-DD` front-matter field is
returned whenever the front-matter match yields one, regardless of the
filename; when the front-matter path yields no year, the result is the
filename fallback, which for an 8-digit `YYYYMMDD_` prefix returns the
year exactly when 1900 ≤ year ≤ 2100, 1 ≤ month ≤ 12 and 1 ≤ day ≤ 31,
and `none` otherwise. -/
theorem c7_year_extraction (content filename fm rest : List Char) (y : Nat)
    (a b c d e f g h : Char) :
    (fmMatch content = some fm → searchCreated fm = some y →
      extract_year_from_frontmatter content filename = some y)
    ∧ ((∀ fm2, fmMatch content = some fm2 → searchCreated fm2 = none) →
      extract_year_from_frontmatter content filename = extract_year_from_filename filename)
    ∧ (isDigitCh a = true → isDigitCh b = true → isDigitCh c = true →
      isDigitCh d = true → isDigitCh e = true → isDigitCh f = true →
      isDigitCh g = true → isDigitCh h = true →
      extract_year_from_filename (a :: b :: c :: d :: e :: f :: g :: h :: '_' :: rest)
        = if 1900 ≤ dec4 a b c d ∧ dec4 a b c d ≤ 2100 ∧ 1 ≤ dec2 e f ∧ dec2 e f ≤ 12
             ∧ 1 ≤ dec2 g h ∧ dec2 g h ≤ 31
          then some (dec4 a b c d) else none) := by
  refine ⟨?_, ?_, ?_⟩
  · intro h1 h2
    simp [extract_year_from_frontmatter, h1, h2]
  · intro hall
    cases hfm : fmMatch content with
    | none => simp [extract_year_from_frontmatter, hfm]
    | some fm2 =>
      have hs := hall fm2 hfm
      simp [extract_year_from_frontmatter, hfm, hs]
  · intro d1 d2 d3 d4' d5 d6 d7 d8
    simp [extract_year_from_filename, d1, d2, d3, d4', d5, d6, d7, d8]

/-- C7 witness: a note with front matter `Created at: 2021-05-06` yields
2021 despite a 1999 filename prefix; the filename `20211301_n.md`
(month 13) yields `none`. -/
theorem c7_year_extraction_witness :
    fmMatch ("---\nCreated at: 2021-05-06\n---\nbody".data)
        = some ("Created at: 2021-05-06".data)
    ∧ searchCreated ("Created at: 2021-05-06".data) = some 2021
    ∧ extract_year_from_frontmatter ("---\nCreated at: 2021-05-06\n---\nbody".data)
        ("19990101_n.md".data) = some 2021
    ∧ extract_year_from_filename ("20211301_n.md".data)
        = (if 1900 ≤ dec4 '2' '0' '2' '1' ∧ dec4 '2' '0' '2' '1' ≤ 2100
              ∧ 1 ≤ dec2 '1' '3' ∧ dec2 '1' '3' ≤ 12 ∧ 1 ≤ dec2 '0' '1' ∧ dec2 '0' '1' ≤ 31
           then some (dec4 '2' '0' '2' '1') else none)
    ∧ extract_year_from_filename ("20211301_n.md".data) = none := by
  refine ⟨by decide, by decide, ?_, ?_, by decide⟩
  · exact (c7_year_extraction ("---\nCreated at: 2021-05-06\n---\nbody".data)
      ("19990101_n.md".data) ("Created at: 2021-05-06".data) [] 2021
      'x' 'x' 'x' 'x' 'x' 'x' 'x' 'x').1 (by decide) (by decide)
  · exact (c7_year_extraction [] [] [] ("n.md".data) 0
      '2' '0' '2' '1' '1' '3' '0' '1').2.2 (by decide) (by decide) (by decide)
      (by decide) (by decide) (by decide) (by decide) (by decide)

/-- C6: `get_unique_filename` returns the target itself when nothing
exists at it, and otherwise the first candidate `stem_N{suffix}`
(N = 1, 2, 3, …, placed in the target's directory, suffix appended after
the numbered stem) that does not exist. -/
theorem c6_get_unique_filename (fs : FS) (target : PPath) (N : Nat) :
    (fs.pathExists target = false → get_unique_filename fs target = target)
    ∧ (1 ≤ N → fs.pathExists target = true →
        fs.pathExists (uniqueCandidate target N) = false →
        (∀ k, 1 ≤ k → k < N → fs.pathExists (uniqueCandidate target k) = true) →
        get_unique_filename fs target = uniqueCandidate target N) := by
  constructor
  · intro h
    simp [get_unique_filename, h]
  · intro h1 h2 h3 h4
    unfold get_unique_filename
    rw [if_pos h2]
    have hfind : Nat.find (uq_free fs target) = N - 1 := by
      rw [Nat.find_eq_iff]
      constructor
      · rw [Nat.sub_add_cancel h1]
        exact h3
      · intro m hm
        have hk := h4 (m + 1) (by omega) (by omega)
        simp [hk]
    rw [hfind, Nat.sub_add_cancel h1]

/-- C6 witness: with `/v/f.png` and `/v/f_1.png` both present,
`get_unique_filename` picks `f_2.png`; a free target is returned as is. -/
theorem c6_get_unique_filename_witness :
    (c6fs.pathExists ⟨true, ["v".data, "q.png".data]⟩ = false
      ∧ get_unique_filename c6fs ⟨true, ["v".data, "q.png".data]⟩
          = ⟨true, ["v".data, "q.png".data]⟩)
    ∧ (c6fs.pathExists ⟨true, ["v".data, "f.png".data]⟩ = true
      ∧ c6fs.pathExists (uniqueCandidate ⟨true, ["v".data, "f.png".data]⟩ 2) = false
      ∧ uniqueCandidate ⟨true, ["v".data, "f.png".data]⟩ 2
          = ⟨true, ["v".data, "f_2.png".data]⟩
      ∧ get_unique_filename c6fs ⟨true, ["v".data, "f.png".data]⟩
          = uniqueCandidate ⟨true, ["v".data, "f.png".data]⟩ 2) := by
  constructor
  · exact ⟨by decide,
      (c6_get_unique_filename c6fs ⟨true, ["v".data, "q.png".data]⟩ 1).1 (by decide)⟩
  · refine ⟨by decide, by decide, by decide, ?_⟩
    exact (c6_get_unique_filename c6fs ⟨true, ["v".data, "f.png".data]⟩ 2).2
      (by decide) (by decide) (by decide)
      (by
        intro k hk1 hk2
        have : k = 1 := by omega
        subst this
        decide)

/-- C10: a reference with a resolved path but a failed fingerprint
(hash `None`) is excluded from every conflict list produced by
`detect_conflicts` (which only groups references with a real,
non-conflict hash), yet is included by `group_by_resource` (which skips
only unresolved paths and the conflict flag), so its resource is still
grouped for relocation planning. -/
theorem c10_unhashed_grouped_not_conflicting (refs : List ResourceReference)
    (r : ResourceReference) (p : PPath) (hr : r ∈ refs)
    (hp : r.resource_actual_path = some p) (hh : r.resource_hash = none) :
    (∀ name l, (name, l) ∈ detect_conflicts refs → r ∉ l)
    ∧ ∃ mds, (p, mds) ∈ group_by_resource refs ∧ r.md_file_path ∈ mds := by
  constructor
  · intro name l hmem hrl
    have hby : (name, l) ∈ groupFold
        (fun rr =>
          if hashTruthy rr.resource_hash && rr.resource_hash != some CONFLICT
          then some (rr.resource_name, rr) else none) refs [] := by
      simp only [detect_conflicts] at hmem
      exact (List.mem_filter.mp hmem).1
    rcases groupFold_mem_val _ refs hby hrl with ⟨b, _, hfb⟩ | ⟨l0, hl0, _⟩
    · by_cases hcond : (hashTruthy b.resource_hash
          && b.resource_hash != some CONFLICT) = true
      · rw [if_pos hcond] at hfb
        have hbr : b = r := congrArg Prod.snd (Option.some.inj hfb)
        rw [hbr, hh] at hcond
        simp [hashTruthy] at hcond
      · rw [if_neg hcond] at hfb
        exact Option.noConfusion hfb
    · simp at hl0
  · have hf : (fun rr =>
        match rr.resource_actual_path with
        | none => none
        | some p2 =>
          if rr.resource_hash == some CONFLICT then none
          else some (p2, rr.md_file_path)) r = some (p, r.md_file_path) := by
      show (match r.resource_actual_path with
        | none => none
        | some p2 =>
          if r.resource_hash == some CONFLICT then none
          else some (p2, r.md_file_path)) = some (p, r.md_file_path)
      rw [hp, hh]
      simp
    exact groupFold_contains _ hr hf []

/-- C10 witness: a lone reference with resolved path and `None` hash is
in no conflict list and is grouped under its path. -/
theorem c10_unhashed_grouped_not_conflicting_witness :
    ((⟨⟨true, ["v".data, "n.md".data]⟩, "x.png".data,
        some ⟨true, ["v".data, "x.png".data]⟩, none⟩ : ResourceReference) ∈ c10refs)
    ∧ (∀ name l, (name, l) ∈ detect_conflicts c10refs →
        (⟨⟨true, ["v".data, "n.md".data]⟩, "x.png".data,
          some ⟨true, ["v".data, "x.png".data]⟩, none⟩ : ResourceReference) ∉ l)
    ∧ ∃ mds, (⟨true, ["v".data, "x.png".data]⟩, mds) ∈ group_by_resource c10refs
        ∧ (⟨true, ["v".data, "n.md".data]⟩ : PPath) ∈ mds := by
  refine ⟨by decide, ?_, ?_⟩
  · exact (c10_unhashed_grouped_not_conflicting c10refs
      ⟨⟨true, ["v".data, "n.md".data]⟩, "x.png".data,
        some ⟨true, ["v".data, "x.png".data]⟩, none⟩
      ⟨true, ["v".data, "x.png".data]⟩ (by decide) rfl rfl).1
  · exact (c10_unhashed_grouped_not_conflicting c10refs
      ⟨⟨true, ["v".data, "n.md".data]⟩, "x.png".data,
        some ⟨true, ["v".data, "x.png".data]⟩, none⟩
      ⟨true, ["v".data, "x.png".data]⟩ (by decide) rfl rfl).2

/-- C5: a non-conflict resource group whose resource already sits at its
computed optimal location (LCA of the referencing notes, joined with
`_resources` and the current filename) queues no move, implies no note
rewrite for that resource, and is counted in `skipped_optimal`. -/
theorem c5_already_optimal_skipped (base : PPath) (fs : FS) (rp : PPath)
    (mds : List PPath) (execute : Bool) (failAt : Nat → Bool)
    (h1 : (rp, mds) ∈ group_by_resource (build_reference_array fs base))
    (h2 : rp ∉ conflictPathsOf (detect_conflicts (build_reference_array fs base)))
    (h3 : rp = optimal_location base mds rp) :
    (∀ tgt mds2, (rp, tgt, mds2) ∉ (optimize_resources execute failAt base fs).2.1)
    ∧ (∀ md, (md, rp) ∉ noteWrites (optimize_resources execute failAt base fs).2.1)
    ∧ 1 ≤ (optimize_resources execute failAt base fs).1.skipped_optimal := by
  have hmoves : (optimize_resources execute failAt base fs).2.1
      = (phase3 base (conflictPathsOf (detect_conflicts (build_reference_array fs base)))
          (group_by_resource (build_reference_array fs base))).1 := rfl
  have hnodup : ((group_by_resource (build_reference_array fs base)).map Prod.fst).Nodup := by
    unfold group_by_resource
    exact groupFold_keys_nodup _ _ [] (by simp)
  have hnomove : ∀ tgt mds2, (rp, tgt, mds2) ∉
      (phase3 base (conflictPathsOf (detect_conflicts (build_reference_array fs base)))
        (group_by_resource (build_reference_array fs base))).1 := by
    intro tgt mds2 hin
    rw [phase3_moves_spec] at hin
    obtain ⟨g, hg, hfg⟩ := List.mem_filterMap.mp hin
    by_cases hc1 : g.1 ∈ conflictPathsOf (detect_conflicts (build_reference_array fs base))
    · rw [if_pos hc1] at hfg
      exact Option.noConfusion hfg
    · by_cases hc2 : g.1 = optimal_location base g.2 g.1
      · rw [if_neg hc1, if_pos hc2] at hfg
        exact Option.noConfusion hfg
      · rw [if_neg hc1, if_neg hc2] at hfg
        have htup := Option.some.inj hfg
        have hg1 : g.1 = rp := congrArg Prod.fst htup
        have hg2 : g.2 = mds2 := congrArg (fun t => t.2.2) htup
        have hgp : (g.1, g.2) ∈
            group_by_resource (build_reference_array fs base) := hg
        rw [hg1] at hgp
        have hmds : g.2 = mds := keys_nodup_unique_val hnodup hgp h1
        apply hc2
        rw [hg1, hmds]
        exact h3
  refine ⟨?_, ?_, ?_⟩
  · intro tgt mds2
    rw [hmoves]
    exact hnomove tgt mds2
  · intro md hmem
    rw [hmoves] at hmem
    obtain ⟨m, hm, hmd⟩ := List.mem_flatMap.mp hmem
    obtain ⟨md0, _, heq⟩ := List.mem_map.mp hmd
    have hm1 : m.1 = rp := congrArg Prod.snd heq
    have : (rp, m.2.1, m.2.2) ∈
        (phase3 base (conflictPathsOf (detect_conflicts (build_reference_array fs base)))
          (group_by_resource (build_reference_array fs base))).1 := by
      rw [← hm1]
      exact hm
    exact hnomove m.2.1 m.2.2 this
  · have hso : (optimize_resources execute failAt base fs).1.skipped_optimal
        = (phase3 base (conflictPathsOf (detect_conflicts (build_reference_array fs base)))
            (group_by_resource (build_reference_array fs base))).2.2 := rfl
    rw [hso]
    exact phase3_optimal_pos base _ h1 h2 h3

/-- C5 witness: two notes in `/v/2023/a` and `/v/2023/b` reference
`p.png` already at `/v/2023/_resources/p.png` — no move, no rewrite for
it, and it is counted as skipped-already-optimal. -/
theorem c5_already_optimal_skipped_witness :
    ((⟨true, ["v".data, "2023".data, "_resources".data, "p.png".data]⟩ : PPath),
        [(⟨true, ["v".data, "2023".data, "a".data, "n1.md".data]⟩ : PPath),
         ⟨true, ["v".data, "2023".data, "b".data, "n2.md".data]⟩])
      ∈ group_by_resource (build_reference_array c5fs ⟨true, ["v".data]⟩)
    ∧ (∀ tgt mds2,
        ((⟨true, ["v".data, "2023".data, "_resources".data, "p.png".data]⟩ : PPath),
          tgt, mds2)
          ∉ (optimize_resources true (fun _ => false) ⟨true, ["v".data]⟩ c5fs).2.1)
    ∧ 1 ≤ (optimize_resources true (fun _ => false)
        ⟨true, ["v".data]⟩ c5fs).1.skipped_optimal := by
  refine ⟨by decide, ?_, ?_⟩
  · exact (c5_already_optimal_skipped ⟨true, ["v".data]⟩ c5fs
      ⟨true, ["v".data, "2023".data, "_resources".data, "p.png".data]⟩
      [⟨true, ["v".data, "2023".data, "a".data, "n1.md".data]⟩,
       ⟨true, ["v".data, "2023".data, "b".data, "n2.md".data]⟩]
      true (fun _ => false) (by decide) (by decide) (by decide)).1
  · exact (c5_already_optimal_skipped ⟨true, ["v".data]⟩ c5fs
      ⟨true, ["v".data, "2023".data, "_resources".data, "p.png".data]⟩
      [⟨true, ["v".data, "2023".data, "a".data, "n1.md".data]⟩,
       ⟨true, ["v".data, "2023".data, "b".data, "n2.md".data]⟩]
      true (fun _ => false) (by decide) (by decide) (by decide)).2.2

/-- C3 (amended): for a reference whose name resolves to two or more
candidates, if the candidates' non-null fingerprints deduplicate to
exactly one value the reference resolves to the *first found* candidate
path with the *first candidate's own* fingerprint (which is null when
that candidate is unreadable); in every other case — including all
fingerprints failing — the reference is flagged `'CONFLICT'` at the
first candidate path. -/
theorem c3_multi_candidate (fs : FS) (base md : PPath) (txt link : List Char)
    (rp rp2 : PPath) (rest : List PPath)
    (hread : fs.files.lookup md = some (some txt))
    (hunder : strictUnder base md = true)
    (hmd : fnmatchComp ("*.md".data) (lastComp md) = true)
    (hlink : link ∈ extractScan txt)
    (hfind : find_resource fs (pathName link) base = rp :: rp2 :: rest) :
    ((((rp :: rp2 :: rest).map (compute_hash fs)).filterMap id).dedup.length = 1 →
      (⟨md, pathName link, some rp, compute_hash fs rp⟩ : ResourceReference)
        ∈ build_reference_array fs base)
    ∧ (¬ (((rp :: rp2 :: rest).map (compute_hash fs)).filterMap id).dedup.length = 1 →
      (⟨md, pathName link, some rp, some CONFLICT⟩ : ResourceReference)
        ∈ build_reference_array fs base) := by
  have hmem : (md, some txt) ∈ fs.files := mem_of_lookup_eq_some hread
  have hmdfiles : (md, some txt) ∈ mdFiles fs base := by
    apply List.mem_filter.mpr
    exact ⟨hmem, by simp [hunder, hmd]⟩
  have hr : FS.read fs md = some txt := by
    unfold FS.read
    rw [hread]
  have hlinks : fs.extract_resource_links md = extractScan txt := by
    unfold FS.extract_resource_links
    rw [hr]
  constructor <;> intro hcase
  · have hm : mkReference fs base md link
        = ⟨md, pathName link, some rp, compute_hash fs rp⟩ := by
      unfold mkReference
      dsimp only
      rw [hfind]
      exact if_pos hcase
    apply List.mem_flatMap.mpr
    refine ⟨(md, some txt), hmdfiles, ?_⟩
    apply List.mem_map.mpr
    refine ⟨link, ?_, hm⟩
    rw [show ((md, some txt) : PPath × Option (List Char)).1 = md from rfl, hlinks]
    exact hlink
  · have hm : mkReference fs base md link
        = ⟨md, pathName link, some rp, some CONFLICT⟩ := by
      unfold mkReference
      dsimp only
      rw [hfind]
      exact if_neg hcase
    apply List.mem_flatMap.mpr
    refine ⟨(md, some txt), hmdfiles, ?_⟩
    apply List.mem_map.mpr
    refine ⟨link, ?_, hm⟩
    rw [show ((md, some txt) : PPath × Option (List Char)).1 = md from rfl, hlinks]
    exact hlink

/-- C3 counterexample to the claim as stated: with candidates
`[a/r.png (unreadable), b/r.png, c/r.png]` whose non-null fingerprints
are all equal, the claim requires resolution to the first candidate
*carrying that shared fingerprint* (`b/r.png`, with a real digest), but
the code resolves to `a/r.png` and stores fingerprint `None`. -/
theorem c3_first_candidate_counterexample :
    build_reference_array c3fs ⟨true, ["v".data]⟩
      = [⟨⟨true, ["v".data, "n.md".data]⟩, "r.png".data,
          some ⟨true, ["v".data, "a".data, "r.png".data]⟩, none⟩]
    ∧ find_resource c3fs ("r.png".data) ⟨true, ["v".data]⟩
        = [⟨true, ["v".data, "a".data, "r.png".data]⟩,
           ⟨true, ["v".data, "b".data, "r.png".data]⟩,
           ⟨true, ["v".data, "c".data, "r.png".data]⟩]
    ∧ compute_hash c3fs ⟨true, ["v".data, "a".data, "r.png".data]⟩ = none
    ∧ compute_hash c3fs ⟨true, ["v".data, "b".data, "r.png".data]⟩ = some ('h' :: "x".data)
    ∧ compute_hash c3fs ⟨true, ["v".data, "c".data, "r.png".data]⟩ = some ('h' :: "x".data)
    ∧ (⟨true, ["v".data, "a".data, "r.png".data]⟩ : PPath)
        ≠ ⟨true, ["v".data, "b".data, "r.png".data]⟩ := by
  refine ⟨by decide, by decide, by decide, by decide, by decide, by decide⟩

/-- C3 witness for the amended claim: on the same fixture the
single-distinct-fingerprint branch produces the first-candidate
reference with the first candidate's (null) fingerprint. -/
theorem c3_multi_candidate_witness :
    (("_resources/r.png".data : List Char)
        ∈ extractScan ("![[_resources/r.png]]".data))
    ∧ ((((⟨true, ["v".data, "a".data, "r.png".data]⟩ : PPath)
          :: ⟨true, ["v".data, "b".data, "r.png".data]⟩
          :: [⟨true, ["v".data, "c".data, "r.png".data]⟩]).map
            (compute_hash c3fs)).filterMap id).dedup.length = 1
    ∧ (⟨⟨true, ["v".data, "n.md".data]⟩, pathName ("_resources/r.png".data),
        some ⟨true, ["v".data, "a".data, "r.png".data]⟩,
        compute_hash c3fs ⟨true, ["v".data, "a".data, "r.png".data]⟩⟩ : ResourceReference)
      ∈ build_reference_array c3fs ⟨true, ["v".data]⟩ := by
  refine ⟨by decide, by decide, ?_⟩
  exact (c3_multi_candidate c3fs ⟨true, ["v".data]⟩ ⟨true, ["v".data, "n.md".data]⟩
    ("![[_resources/r.png]]".data) ("_resources/r.png".data)
    ⟨true, ["v".data, "a".data, "r.png".data]⟩
    ⟨true, ["v".data, "b".data, "r.png".data]⟩
    [⟨true, ["v".data, "c".data, "r.png".data]⟩]
    (by decide) (by decide) (by decide) (by decide) (by decide)).1 (by decide)

theorem tokenizeGo_lit : ∀ (fuel : Nat) (l : List Char), l.length ≤ fuel →
    (∀ c ∈ l, c ≠ '*' ∧ c ≠ '?' ∧ c ≠ '[') → tokenizeGo fuel l = l.map GlobTok.lit := by
  intro fuel
  induction fuel with
  | zero =>
    intro l hl _
    have : l = [] := List.eq_nil_of_length_eq_zero (by omega)
    subst this
    rfl
  | succ fuel ih =>
    intro l hl hmeta
    cases l with
    | nil => rfl
    | cons c r =>
      have hc := hmeta c (List.mem_cons_self _ _)
      have h1 : (c == '*') = false := by simp [hc.1]
      have h2 : (c == '?') = false := by simp [hc.2.1]
      have h3 : (c == '[') = false := by simp [hc.2.2]
      simp only [tokenizeGo, h1, h2, h3, Bool.false_eq_true, if_false, List.map_cons]
      rw [ih r (by simpa using Nat.le_of_succ_le_succ (by simpa using hl))
        (fun x hx => hmeta x (List.mem_cons_of_mem _ hx))]

theorem matchToksGo_lit : ∀ (fuel : Nat) (l s : List Char), l.length + s.length < fuel →
    ((matchToksGo fuel (l.map GlobTok.lit) s = true) ↔ l = s) := by
  intro fuel
  induction fuel with
  | zero =>
    intro l s h
    exact absurd h (Nat.not_lt_zero _)
  | succ fuel ih =>
    intro l s h
    cases l with
    | nil =>
      simp only [List.map_nil, matchToksGo]
      cases s <;> simp
    | cons c l2 =>
      cases s with
      | nil => simp [matchToksGo]
      | cons x t =>
        simp only [List.map_cons, matchToksGo, Bool.and_eq_true, beq_iff_eq]
        rw [ih l2 t (by simp at h; omega)]
        constructor
        · rintro ⟨hxc, hlt⟩
          rw [hxc, hlt]
        · intro he
          injection he with hh1 hh2
          exact ⟨hh1.symm, hh2⟩

theorem fnmatch_lit (pat s : List Char) (h : noGlobMeta pat) :
    (fnmatchComp pat s = true) ↔ pat = s := by
  unfold fnmatchComp tokenize
  rw [tokenizeGo_lit pat.length pat le_rfl h]
  exact matchToksGo_lit _ pat s (by omega)

/-- C8 (amended): for a resource filename free of glob metacharacters,
`find_resource` returns exactly the regular files strictly under the
root whose final name component equals the filename (a name containing
`*`, `?` or `[` is instead interpreted as a glob pattern by `rglob` —
see the counterexample); and a filesystem error during the walk returns
the already-found prefix of the results: the errored result is a sublist
of the full walk's and contains every match among the entries consumed
before the error. -/
theorem c8_find_resource_exact (fs : FS) (name : List Char) (root p : PPath)
    (entries : List (PPath × Bool)) (k : Nat) :
    (noGlobMeta name →
      (p ∈ find_resource fs name root ↔
        ((p, true) ∈ fs.entriesList ∧ strictUnder root p = true ∧ lastComp p = name)))
    ∧ List.Sublist (find_resource_walk name root entries (some k))
        (find_resource_walk name root entries none)
    ∧ (∀ q ∈ find_resource_entries name root (entries.take k),
        q ∈ find_resource_walk name root entries (some k)) := by
  refine ⟨?_, ?_, ?_⟩
  · intro hmeta
    unfold find_resource find_resource_entries
    constructor
    · intro hmem
      obtain ⟨e, he, heq⟩ := List.mem_map.mp hmem
      obtain ⟨hfe, hcond⟩ := List.mem_filter.mp he
      rw [Bool.and_eq_true, Bool.and_eq_true] at hcond
      obtain ⟨⟨h2, h3⟩, h4⟩ := hcond
      have hname : lastComp e.1 = name := ((fnmatch_lit name (lastComp e.1) hmeta).mp h4).symm
      have hep : e = (p, true) := by
        obtain ⟨e1, e2⟩ := e
        simp only at heq h2
        rw [heq, h2]
      rw [hep] at hfe h3 hname
      exact ⟨hfe, h3, hname⟩
    · rintro ⟨hin, hu, hn⟩
      apply List.mem_map.mpr
      refine ⟨(p, true), List.mem_filter.mpr ⟨hin, ?_⟩, rfl⟩
      show (true && strictUnder root p && fnmatchComp name (lastComp p)) = true
      rw [hn]
      simp [hu, (fnmatch_lit name name hmeta).mpr rfl]
  · unfold find_resource_walk
    exact List.Sublist.map _ (List.Sublist.filter _ (List.take_sublist k entries))
  · intro q hq
    exact hq

/-- C8 counterexample to the claim as stated: the filename `a?.png`
makes `find_resource` return `ab.png`, a file with a *different* name,
because `rglob` treats `?` as a wildcard. -/
theorem c8_wildcard_counterexample :
    (⟨true, ["r".data, "ab.png".data]⟩ : PPath)
      ∈ find_resource
          ⟨[(⟨true, ["r".data, "ab.png".data]⟩, some ("Z".data))], [⟨true, ["r".data]⟩]⟩
          ("a?.png".data) ⟨true, ["r".data]⟩
    ∧ lastComp ⟨true, ["r".data, "ab.png".data]⟩ ≠ "a?.png".data := by
  exact ⟨by decide, by decide⟩

/-- C8 witness: for the plain name `p.png` the membership
characterisation holds on a concrete two-file tree. -/
theorem c8_find_resource_exact_witness :
    noGlobMeta ("p.png".data)
    ∧ ((⟨true, ["r".data, "s".data, "p.png".data]⟩ : PPath)
        ∈ find_resource
            ⟨[(⟨true, ["r".data, "s".data, "p.png".data]⟩, some ("Z".data)),
              (⟨true, ["r".data, "q.png".data]⟩, some ("W".data))], [⟨true, ["r".data]⟩]⟩
            ("p.png".data) ⟨true, ["r".data]⟩
      ↔ (((⟨true, ["r".data, "s".data, "p.png".data]⟩ : PPath), true)
            ∈ FS.entriesList
              ⟨[(⟨true, ["r".data, "s".data, "p.png".data]⟩, some ("Z".data)),
                (⟨true, ["r".data, "q.png".data]⟩, some ("W".data))], [⟨true, ["r".data]⟩]⟩
          ∧ strictUnder ⟨true, ["r".data]⟩ ⟨true, ["r".data, "s".data, "p.png".data]⟩ = true
          ∧ lastComp ⟨true, ["r".data, "s".data, "p.png".data]⟩ = "p.png".data)) := by
  refine ⟨by unfold noGlobMeta; decide, ?_⟩
  exact (c8_find_resource_exact
    ⟨[(⟨true, ["r".data, "s".data, "p.png".data]⟩, some ("Z".data)),
      (⟨true, ["r".data, "q.png".data]⟩, some ("W".data))], [⟨true, ["r".data]⟩]⟩
    ("p.png".data) ⟨true, ["r".data]⟩ ⟨true, ["r".data, "s".data, "p.png".data]⟩
    [] 0).1 (by unfold noGlobMeta; decide)

theorem ppath_ext {a b : PPath} (h1 : a.abs = b.abs) (h2 : a.comps = b.comps) :
    a = b := by
  cases a
  cases b
  simp only at h1 h2
  rw [h1, h2]

theorem mem_parentsList {q p : PPath} :
    q ∈ parentsList p ↔ ∃ k, k < p.comps.length ∧ q = ⟨p.abs, p.comps.take k⟩ := by
  unfold parentsList
  constructor
  · intro h
    obtain ⟨a, ha, hfa⟩ := List.mem_map.mp h
    exact ⟨a, List.mem_range.mp (List.mem_reverse.mp ha), hfa.symm⟩
  · rintro ⟨k, hk, rfl⟩
    exact List.mem_map.mpr ⟨k, List.mem_reverse.mpr (List.mem_range.mpr hk), rfl⟩

theorem isPropAncestor_iff {d p : PPath} :
    isPropAncestor d p ↔ d ∈ parentsList p := by
  rw [mem_parentsList]
  constructor
  · rintro ⟨habs, hpre, hlen⟩
    refine ⟨d.comps.length, hlen, ?_⟩
    have hp : d.comps <+: p.comps := List.isPrefixOf_iff_prefix.mp hpre
    have htake : d.comps = p.comps.take d.comps.length := List.prefix_iff_eq_take.mp hp
    exact ppath_ext habs htake
  · rintro ⟨k, hk, rfl⟩
    refine ⟨rfl, ?_, ?_⟩
    · exact List.isPrefixOf_iff_prefix.mpr (List.take_prefix k p.comps)
    · simp only [List.length_take]
      omega

theorem parentsList_abs {q p : PPath} (h : q ∈ parentsList p) : q.abs = p.abs := by
  obtain ⟨k, hk, rfl⟩ := mem_parentsList.mp h
  rfl

theorem parentsList_chain {q1 q2 p : PPath} (h1 : q1 ∈ parentsList p)
    (h2 : q2 ∈ parentsList p) (hle : q1.comps.length ≤ q2.comps.length) :
    q1.comps <+: q2.comps := by
  obtain ⟨k1, hk1, rfl⟩ := mem_parentsList.mp h1
  obtain ⟨k2, hk2, rfl⟩ := mem_parentsList.mp h2
  simp only [List.length_take] at hle
  have h12 : k1 ≤ k2 := by omega
  have : p.comps.take k1 = (p.comps.take k2).take k1 := by
    rw [List.take_take, min_eq_left h12]
  rw [show (PPath.mk p.abs (p.comps.take k1)).comps = p.comps.take k1 from rfl,
    show (PPath.mk p.abs (p.comps.take k2)).comps = p.comps.take k2 from rfl, this]
  exact List.take_prefix _ _

theorem foldl_partsMax (c : PPath) (cs : List PPath) :
    (cs.foldl (fun acc x => if partsLen acc < partsLen x then x else acc) c) ∈ c :: cs
    ∧ ∀ x ∈ c :: cs, partsLen x ≤
        partsLen (cs.foldl (fun acc x => if partsLen acc < partsLen x then x else acc) c) := by
  induction cs generalizing c with
  | nil =>
    refine ⟨List.mem_singleton.mpr rfl, ?_⟩
    intro x hx
    rw [List.mem_singleton.mp hx]
    exact le_rfl
  | cons y ys ih =>
    rw [List.foldl_cons]
    obtain ⟨hmem, hbound⟩ := ih (if partsLen c < partsLen y then y else c)
    have hc2 : partsLen c ≤ partsLen (if partsLen c < partsLen y then y else c)
        ∧ partsLen y ≤ partsLen (if partsLen c < partsLen y then y else c)
        ∧ ((if partsLen c < partsLen y then y else c) = c
            ∨ (if partsLen c < partsLen y then y else c) = y) := by
      by_cases hcy : partsLen c < partsLen y
      · rw [if_pos hcy]
        exact ⟨Nat.le_of_lt hcy, le_rfl, Or.inr rfl⟩
      · rw [if_neg hcy]
        exact ⟨le_rfl, Nat.le_of_not_lt hcy, Or.inl rfl⟩
    constructor
    · rcases List.mem_cons.mp hmem with h | h
      · rcases hc2.2.2 with h2 | h2
        · rw [h, h2]
          exact List.mem_cons_self _ _
        · rw [h, h2]
          exact List.mem_cons_of_mem _ (List.mem_cons_self _ _)
      · exact List.mem_cons_of_mem _ (List.mem_cons_of_mem _ h)
    · intro x hx
      have hc2b := hbound _ (List.mem_cons_self _ _)
      rcases List.mem_cons.mp hx with h | h
      · rw [h]
        exact le_trans hc2.1 hc2b
      · rcases List.mem_cons.mp h with h2 | h2
        · rw [h2]
          exact le_trans hc2.2.1 hc2b
        · exact hbound x (List.mem_cons_of_mem _ h2)

theorem flca_cons_cons (base p q : PPath) (rest : List PPath) :
    find_lowest_common_ancestor base (p :: q :: rest)
      = (match (parentsList p).filter
          (fun a => (q :: rest).all (fun x => decide (a ∈ parentsList x))) with
        | [] => base
        | c :: cs =>
          cs.foldl (fun acc x => if partsLen acc < partsLen x then x else acc) c) := rfl

theorem mem_common_iff (p q : PPath) (rest : List PPath) (a : PPath) :
    a ∈ (parentsList p).filter
        (fun a => (q :: rest).all (fun x => decide (a ∈ parentsList x)))
    ↔ isAncestorOfAll a (p :: q :: rest) := by
  rw [List.mem_filter]
  constructor
  · rintro ⟨h1, h2⟩
    intro x hx
    rcases List.mem_cons.mp hx with rfl | hx2
    · exact isPropAncestor_iff.mpr h1
    · exact isPropAncestor_iff.mpr (of_decide_eq_true (List.all_eq_true.mp h2 x hx2))
  · intro h
    refine ⟨isPropAncestor_iff.mp (h p (List.mem_cons_self _ _)), ?_⟩
    apply List.all_eq_true.mpr
    intro x hx
    exact decide_eq_true (isPropAncestor_iff.mp (h x (List.mem_cons_of_mem _ hx)))

/-- C4: `find_lowest_common_ancestor` returns the single note's own
parent directory for a one-element list; for two or more paths sharing
an ancestor it returns the deepest directory that is a (proper) ancestor
of every path (every other common ancestor is the result itself or an
ancestor of it); and it returns the configured base root for the empty
list or when no common ancestor exists. -/
theorem c4_lowest_common_ancestor (base p q : PPath) (rest : List PPath) :
    find_lowest_common_ancestor base [p] = parent p
    ∧ find_lowest_common_ancestor base ([] : List PPath) = base
    ∧ (∀ d0, isAncestorOfAll d0 (p :: q :: rest) →
        isAncestorOfAll (find_lowest_common_ancestor base (p :: q :: rest))
          (p :: q :: rest)
        ∧ (∀ d, isAncestorOfAll d (p :: q :: rest) →
            d = find_lowest_common_ancestor base (p :: q :: rest)
            ∨ isPropAncestor d (find_lowest_common_ancestor base (p :: q :: rest))))
    ∧ ((¬ ∃ d, isAncestorOfAll d (p :: q :: rest)) →
        find_lowest_common_ancestor base (p :: q :: rest) = base) := by
  refine ⟨rfl, rfl, ?_, ?_⟩
  · intro d0 hd0
    have hd0c := (mem_common_iff p q rest d0).mpr hd0
    rw [flca_cons_cons]
    rcases hcom : (parentsList p).filter
        (fun a => (q :: rest).all (fun x => decide (a ∈ parentsList x))) with _ | ⟨c, cs⟩
    · rw [hcom] at hd0c
      simp at hd0c
    · show isAncestorOfAll
          (cs.foldl (fun acc x => if partsLen acc < partsLen x then x else acc) c)
          (p :: q :: rest) ∧ _
      obtain ⟨hrmem, hrbound⟩ := foldl_partsMax c cs
      have hrmem2 : (cs.foldl (fun acc x => if partsLen acc < partsLen x then x else acc) c)
          ∈ (parentsList p).filter
            (fun a => (q :: rest).all (fun x => decide (a ∈ parentsList x))) := by
        rw [hcom]
        exact hrmem
      have hrcomm := (mem_common_iff p q rest _).mp hrmem2
      refine ⟨hrcomm, ?_⟩
      intro d hd
      have hdc := (mem_common_iff p q rest d).mpr hd
      rw [hcom] at hdc
      have hdbound := hrbound d hdc
      have hdp : d ∈ parentsList p :=
        isPropAncestor_iff.mp (hd p (List.mem_cons_self _ _))
      have hrp : (cs.foldl (fun acc x => if partsLen acc < partsLen x then x else acc) c)
          ∈ parentsList p :=
        isPropAncestor_iff.mp (hrcomm p (List.mem_cons_self _ _))
      have hda := parentsList_abs hdp
      have hra := parentsList_abs hrp
      have habs : d.abs =
          (cs.foldl (fun acc x => if partsLen acc < partsLen x then x else acc) c).abs :=
        hda.trans hra.symm
      have hlen : d.comps.length ≤
          (cs.foldl (fun acc x => if partsLen acc < partsLen x then x else acc) c).comps.length := by
        have e1 : partsLen d = d.comps.length + (if p.abs then 1 else 0) := by
          rw [← hda]
          rfl
        have e2 : partsLen
              (cs.foldl (fun acc x => if partsLen acc < partsLen x then x else acc) c)
            = (cs.foldl (fun acc x => if partsLen acc < partsLen x then x else acc)
                c).comps.length + (if p.abs then 1 else 0) := by
          rw [← hra]
          rfl
        rw [e1, e2] at hdbound
        omega
      have hpre : d.comps <+:
          (cs.foldl (fun acc x => if partsLen acc < partsLen x then x else acc) c).comps :=
        parentsList_chain hdp hrp hlen
      by_cases heq : d.comps.length =
          (cs.foldl (fun acc x => if partsLen acc < partsLen x then x else acc) c).comps.length
      · exact Or.inl (ppath_ext habs (List.IsPrefix.eq_of_length hpre heq))
      · exact Or.inr ⟨habs, List.isPrefixOf_iff_prefix.mpr hpre,
          lt_of_le_of_ne hlen heq⟩
  · intro hnone
    rw [flca_cons_cons]
    rcases hcom : (parentsList p).filter
        (fun a => (q :: rest).all (fun x => decide (a ∈ parentsList x))) with _ | ⟨c, cs⟩
    · rfl
    · exfalso
      apply hnone
      refine ⟨c, (mem_common_iff p q rest c).mp ?_⟩
      rw [hcom]
      exact List.mem_cons_self _ _

/-- C4 witness: for notes `/root/X/a/n1.md` and `/root/X/b/n2.md` the
LCA is `/root/X`; for the one-element list the result is the note's
parent directory. -/
theorem c4_lowest_common_ancestor_witness :
    isAncestorOfAll ⟨true, ["root".data, "X".data]⟩
      [⟨true, ["root".data, "X".data, "a".data, "n1.md".data]⟩,
       ⟨true, ["root".data, "X".data, "b".data, "n2.md".data]⟩]
    ∧ find_lowest_common_ancestor ⟨true, ["root".data]⟩
        [⟨true, ["root".data, "X".data, "a".data, "n1.md".data]⟩,
         ⟨true, ["root".data, "X".data, "b".data, "n2.md".data]⟩]
      = ⟨true, ["root".data, "X".data]⟩
    ∧ isAncestorOfAll
        (find_lowest_common_ancestor ⟨true, ["root".data]⟩
          [⟨true, ["root".data, "X".data, "a".data, "n1.md".data]⟩,
           ⟨true, ["root".data, "X".data, "b".data, "n2.md".data]⟩])
        [⟨true, ["root".data, "X".data, "a".data, "n1.md".data]⟩,
         ⟨true, ["root".data, "X".data, "b".data, "n2.md".data]⟩]
    ∧ find_lowest_common_ancestor ⟨true, ["root".data]⟩
        [⟨true, ["root".data, "X".data, "a".data, "n1.md".data]⟩]
      = parent ⟨true, ["root".data, "X".data, "a".data, "n1.md".data]⟩ := by
  have hanc : isAncestorOfAll ⟨true, ["root".data, "X".data]⟩
      [⟨true, ["root".data, "X".data, "a".data, "n1.md".data]⟩,
       ⟨true, ["root".data, "X".data, "b".data, "n2.md".data]⟩] := by
    unfold isAncestorOfAll isPropAncestor
    decide
  refine ⟨hanc, by decide, ?_, ?_⟩
  · exact ((c4_lowest_common_ancestor ⟨true, ["root".data]⟩
      ⟨true, ["root".data, "X".data, "a".data, "n1.md".data]⟩
      ⟨true, ["root".data, "X".data, "b".data, "n2.md".data]⟩ []).2.2.1
      ⟨true, ["root".data, "X".data]⟩ hanc).1
  · exact (c4_lowest_common_ancestor ⟨true, ["root".data]⟩
      ⟨true, ["root".data, "X".data, "a".data, "n1.md".data]⟩
      ⟨true, ["root".data, "X".data, "b".data, "n2.md".data]⟩ []).1

end ObsidianSpec
